import Mathlib

/-!
Verification development for the `webext-messaging` repository.

This file shallowly embeds the route-scanner core (route extraction from
object literals, static expression resolution, spread-aware aggregation),
the message-response handling of `src/lib/core.ts`, and the enable/disable
state machine of `createRouterCore`, and proves the specification claims
about them.

The scanner operates on `ts-morph` syntax nodes.  We embed the fragment of
the syntax-node API the scanner actually touches: every node carries its
source text (`getText`), object literals carry their property list, call
expressions their callee and argument list, property accesses their base
expression and member name, and function-like nodes their parameter list
and the checker-rendered return-type text.

The resolver of the source is a set of mutually recursive procedures that
share a mutable `Set<string>` of visited node texts.  We embed the mutable
set as explicitly threaded state (`List String`), and the unbounded
recursion with a fuel parameter that models the call stack; a fuel value
sufficient for every input is computed from the finite collection of node
texts reachable by the procedures, and the development proves that this
fuel is never exhausted, which is exactly the termination argument for the
source recursion.
-/

/-- A parameter declaration of a handler function: its full source text
(`getText()`, which includes the binding name and any type annotation) and
the source text of just its type annotation, when one is written. -/
structure Param where
  text : String
  tyText : Option String
deriving DecidableEq, Repr

/-- `RouteInfo` from `types.ts`: one discovered route. -/
structure RouteInfo where
  path : String
  file : String
  paramText : String
  returnType : String
deriving DecidableEq, Repr

mutual
/-- The fragment of `ts-morph` syntax nodes inspected by the scanner.
`text` fields carry the node's `getText()` result; for identifiers the
text is the identifier name itself. -/
inductive Node where
  | objectLit (props : List ObjProp) (text : String)
  | ident (name : String)
  | call (callee : Node) (args : List Node) (text : String)
  | propAccess (obj : Node) (name : String) (text : String)
  | arrowFn (params : List Param) (retType : String) (text : String)
  | funcExpr (params : List Param) (retType : String) (text : String)
  | other (text : String)

/-- A member of an object literal: method shorthand, key/value property
assignment, spread assignment, or any other member kind (e.g. shorthand
property assignment or accessor). -/
inductive ObjProp where
  | method (name : String) (params : List Param) (retType : String)
  | propAssign (name : String) (init : Option Node)
  | spreadAssign (expr : Node)
  | otherProp (name : Option String) (text : String)
end

/-- `getText()` of a node. -/
def Node.getText : Node → String
  | .objectLit _ t => t
  | .ident nm => nm
  | .call _ _ t => t
  | .propAccess _ _ t => t
  | .arrowFn _ _ t => t
  | .funcExpr _ _ t => t
  | .other t => t

/-- `getName()` of an object-literal member, for members that have one. -/
def ObjProp.propName : ObjProp → Option String
  | .method nm _ _ => some nm
  | .propAssign nm _ => some nm
  | .spreadAssign _ => none
  | .otherProp nm _ => nm

/-- A variable declaration of the file: name and optional initializer. -/
structure VariableDeclaration where
  name : String
  init : Option Node

/-- A function declaration of the file: optional name, and the optional
return expressions of its descendant `return` statements, in document
order. -/
structure FunctionDeclaration where
  name : Option String
  returnExprs : List (Option Node)

/-- The part of a `SourceFile` the resolver consults: its variable
declarations (`getVariableDeclarations`) and its function declarations
(`getFunctions`). -/
structure SourceFile where
  variableDeclarations : List VariableDeclaration
  functions : List FunctionDeclaration

/-- The path normalisation of `extractRoutesFromObjectLiteral` line 44:
`routePath.replace(/^['"]|['"]$/g, '')` removes one leading and one
trailing quote character (single or double). -/
def stripQuotes (s : String) : String :=
  let s1 := if s.length > 0 && (s.front == '\'' || s.front == '"') then s.drop 1 else s
  if s1.length > 0 && (s1.back == '\'' || s1.back == '"') then s1.dropRight 1 else s1

/-- Lines 47-50: `params.length > 0 ? params[0].getText() : ''`. -/
def firstParamText : List Param → String
  | [] => ""
  | p :: _ => p.text

/-- The body of the `forEach` of `extractRoutesFromObjectLiteral`
(lines 12-64): the `RouteInfo` pushed for one object-literal member, or
`none` when the member is skipped (spreads, non-function values, members
that are neither methods nor property assignments). -/
def routeOfProp (filePath : String) : ObjProp → Option RouteInfo
  | .method nm params retType =>
      some { path := stripQuotes nm, file := filePath,
             paramText := firstParamText params, returnType := retType }
  | .propAssign nm (some init) =>
      match init with
      | .arrowFn params retType _ =>
          some { path := stripQuotes nm, file := filePath,
                 paramText := firstParamText params, returnType := retType }
      | .funcExpr params retType _ =>
          some { path := stripQuotes nm, file := filePath,
                 paramText := firstParamText params, returnType := retType }
      | _ => none
  | .propAssign _ none => none
  | .spreadAssign _ => none
  | .otherProp _ _ => none

/-- `extractRoutesFromObjectLiteral(objLiteral, filePath)` (lines 7-67):
returns `[]` for non-object-literal input, otherwise pushes one
`RouteInfo` per accepted member in property order. -/
def extractRoutesFromObjectLiteral (objLiteral : Node) (filePath : String) : List RouteInfo :=
  match objLiteral with
  | .objectLit props _ => props.filterMap (routeOfProp filePath)
  | _ => []

/-- The state threaded through resolution: the result of the current
branch (`Node | undefined`) together with the shared visited set. -/
abbrev RState := Option Node × List String

/-- The variable-declaration lookup loop of `resolveIdentifier`
(lines 117-125): the first declaration whose name matches and which has an
initializer; a matching declaration without initializer is skipped. -/
def findVarInit : List VariableDeclaration → String → Option Node
  | [], _ => none
  | d :: ds, nm =>
    if d.name = nm then
      match d.init with
      | some i => some i
      | none => findVarInit ds nm
    else findVarInit ds nm

/-- The inner loop over the return statements of one matching function
declaration (lines 131-138 and 173-180): each return statement with an
expression is resolved; the first successful resolution is returned,
failed attempts keep their visited-set updates. -/
def returnsLoop (res : Node → List String → Option RState) :
    List (Option Node) → List String → Option RState
  | [], visited => some (none, visited)
  | none :: rs, visited => returnsLoop res rs visited
  | some e :: rs, visited =>
    match res e visited with
    | none => none
    | some (some r, visited') => some (some r, visited')
    | some (none, visited') => returnsLoop res rs visited'

/-- The loop over the file's function declarations (lines 128-140 and
169-182, identical in `resolveIdentifier` and `resolveFunctionCall`):
declarations whose name matches are searched via `returnsLoop`. -/
def funcsLoop (res : Node → List String → Option RState)
    (nm : String) : List FunctionDeclaration → List String → Option RState
  | [], visited => some (none, visited)
  | f :: fs, visited =>
    if f.name = some nm then
      match returnsLoop res f.returnExprs visited with
      | none => none
      | some (some r, visited') => some (some r, visited')
      | some (none, visited') => funcsLoop res nm fs visited'
    else funcsLoop res nm fs visited

/-- `resolveIdentifier` (lines 111-143), parameterised by the recursive
resolver `res` (in the source, the mutual recursion through
`resolveNodeRecursively`). -/
def resolveIdentifier (res : Node → List String → Option RState)
    (node : Node) (sf : SourceFile) (visited : List String) : Option RState :=
  match node with
  | .ident nm =>
    match findVarInit sf.variableDeclarations nm with
    | some init => res init visited
    | none => funcsLoop res nm sf.functions visited
  | _ => some (none, visited)

/-- `resolveFunctionCall` (lines 148-186), parameterised by the recursive
resolver.  For an identifier callee naming a known pass-through helper the
first argument is resolved (when present); otherwise matching function
declarations are searched exactly as for identifiers. -/
def resolveFunctionCall (res : Node → List String → Option RState)
    (node : Node) (sf : SourceFile) (visited : List String) : Option RState :=
  match node with
  | .call callee args _ =>
    match callee with
    | .ident fn =>
      if fn = "defineMessageRoutes" ∨ fn = "Object.assign" ∨ fn = "merge" then
        match args with
        | a :: _ => res a visited
        | [] => funcsLoop res fn sf.functions visited
      else funcsLoop res fn sf.functions visited
    | _ => some (none, visited)
  | _ => some (none, visited)

/-- `getProperty(name)` on an object literal's property list: the first
member whose name matches. -/
def getProperty (props : List ObjProp) (nm : String) : Option ObjProp :=
  props.find? (fun p => p.propName = some nm)

/-- `resolvePropertyAccess` (lines 191-211), parameterised by the
recursive resolver. -/
def resolvePropertyAccess (res : Node → List String → Option RState)
    (node : Node) (_sf : SourceFile) (visited : List String) : Option RState :=
  match node with
  | .propAccess objExpr nm _ =>
    match res objExpr visited with
    | none => none
    | some (some resolvedObj, visited') =>
      match resolvedObj with
      | .objectLit props _ =>
        match getProperty props nm with
        | some (.propAssign _ (some init)) => res init visited'
        | _ => some (none, visited')
      | _ => some (none, visited')
    | some (none, visited') => some (none, visited')
  | _ => some (none, visited)

/-- `resolveNodeRecursively` (lines 216-228), which is also the body of
the inner `resolve` of `resolveVariableToObjectLiteral` (lines 75-103).
The outer `Option` is the fuel guard: `none` means the modelled call stack
was exhausted, which is proven unreachable for the fuel bound used by
`resolveVariableToObjectLiteral`. -/
def resolveNodeRecursively : Nat → Node → SourceFile → List String → Option RState
  | 0, _, _, _ => none
  | fuel + 1, node, sf, visited =>
    if node.getText ∈ visited then some (none, visited)
    else
      let visited' := node.getText :: visited
      match node with
      | .objectLit _ _ => some (some node, visited')
      | .ident _ =>
          resolveIdentifier (fun n v => resolveNodeRecursively fuel n sf v) node sf visited'
      | .call _ _ _ =>
          resolveFunctionCall (fun n v => resolveNodeRecursively fuel n sf v) node sf visited'
      | .propAccess _ _ _ =>
          resolvePropertyAccess (fun n v => resolveNodeRecursively fuel n sf v) node sf visited'
      | _ => some (none, visited')

mutual
/-- All node texts of a node and its descendants (the candidate entries of
the resolver's visited set reachable from the node). -/
def Node.subtexts : Node → List String
  | .objectLit props t => t :: propsSubtexts props
  | .ident nm => [nm]
  | .call callee args t => t :: (callee.subtexts ++ nodesSubtexts args)
  | .propAccess obj _ t => t :: obj.subtexts
  | .arrowFn _ _ t => [t]
  | .funcExpr _ _ t => [t]
  | .other t => [t]

def propSubtexts : ObjProp → List String
  | .method _ _ _ => []
  | .propAssign _ (some i) => i.subtexts
  | .propAssign _ none => []
  | .spreadAssign e => e.subtexts
  | .otherProp _ _ => []

def nodesSubtexts : List Node → List String
  | [] => []
  | n :: ns => n.subtexts ++ nodesSubtexts ns

def propsSubtexts : List ObjProp → List String
  | [] => []
  | p :: ps => propSubtexts p ++ propsSubtexts ps
end

/-- All node texts reachable through the source file's declarations:
subtexts of every variable initializer and of every return expression of
every function declaration. -/
def SourceFile.allTexts (sf : SourceFile) : List String :=
  (sf.variableDeclarations.filterMap VariableDeclaration.init).flatMap Node.subtexts
    ++ sf.functions.flatMap (fun f => (f.returnExprs.filterMap id).flatMap Node.subtexts)

/-- The finite universe of node texts resolution starting from `node` can
ever insert into its visited set. -/
def textUniverse (node : Node) (sf : SourceFile) : Finset String :=
  (node.subtexts ++ sf.allTexts).toFinset

/-- Fuel sufficient for resolving `node`: one call-stack level per
insertable text, plus one.  Proven sufficient below. -/
def resolveBound (node : Node) (sf : SourceFile) : Nat :=
  (textUniverse node sf).card + 1

/-- `resolveVariableToObjectLiteral(node, sourceFile)` (lines 72-106): run
the recursive resolution with a fresh visited set.  The `none` branch
(fuel exhaustion) is proven unreachable. -/
def resolveVariableToObjectLiteral (node : Node) (sf : SourceFile) : Option Node :=
  match resolveNodeRecursively (resolveBound node sf) node sf [] with
  | some (r, _) => r
  | none => none

/-- The `forEach` over properties inside `extractFromObject`
(lines 244-254): each spread member's expression is resolved with a fresh
resolver visited set, and on success the aggregation recurses into the
resolved literal; non-spread members contribute nothing here. -/
def spreadsLoop (efo : Node → List String → Option (List RouteInfo × List String))
    (sf : SourceFile) : List ObjProp → List String → Option (List RouteInfo × List String)
  | [], visited => some ([], visited)
  | .spreadAssign e :: ps, visited =>
    match resolveVariableToObjectLiteral e sf with
    | some resolved =>
      match efo resolved visited with
      | none => none
      | some (rs1, visited') =>
        match spreadsLoop efo sf ps visited' with
        | none => none
        | some (rs2, visited'') => some (rs1 ++ rs2, visited'')
    | none => spreadsLoop efo sf ps visited
  | _ :: ps, visited => spreadsLoop efo sf ps visited

/-- `extractFromObject` (lines 239-259): guarded by the aggregator's own
visited set of object-literal texts; spreads are expanded first, then the
literal's own routes are appended.  The routes pushed by one invocation
are returned in push order together with the updated visited set. -/
def extractFromObject (sf : SourceFile) (filePath : String) :
    Nat → Node → List String → Option (List RouteInfo × List String)
  | 0, _, _ => none
  | fuel + 1, obj, visited =>
    match obj with
    | .objectLit props t =>
      if t ∈ visited then some ([], visited)
      else
        match spreadsLoop (fun n v => extractFromObject sf filePath fuel n v) sf props
            (t :: visited) with
        | none => none
        | some (rs, visited') =>
            some (rs ++ extractRoutesFromObjectLiteral (.objectLit props t) filePath, visited')
    | _ => some ([], visited)

/-- Fuel sufficient for aggregating `objLiteral`: proven sufficient
below. -/
def aggBound (objLiteral : Node) (sf : SourceFile) : Nat :=
  (textUniverse objLiteral sf).card + 1

/-- `extractRoutesWithSpreads(objLiteral, sourceFile, filePath)`
(lines 233-263).  The `none` branch (fuel exhaustion) is proven
unreachable. -/
def extractRoutesWithSpreads (objLiteral : Node) (sf : SourceFile) (filePath : String) :
    List RouteInfo :=
  match objLiteral with
  | .objectLit _ _ =>
    match extractFromObject sf filePath (aggBound objLiteral sf) objLiteral [] with
    | some (rs, _) => rs
    | none => []
  | _ => []

/-!
Model of `src/lib/core.ts`.

A settled JavaScript promise is modelled as `Except E A`: `.error e` is a
rejected promise, `.ok a` a fulfilled one.  `pThen` and `pCatch` model
`Promise.prototype.then` (whose callback may throw, i.e. return
`.error`) and `Promise.prototype.catch` on settled promises.  The optional
`logger`/`onError` callbacks of `MessageSenderOptions` are notification
side effects with no influence on the settled value and are not modelled
at the value level.
-/

/-- `MessageResponse` from `types.ts`: `{ data?, error? }`. -/
structure MessageResponse (E T : Type) where
  data : Option T
  error : Option E

/-- `p.then(f)` on a settled promise, where `f` may throw. -/
def pThen {E A B : Type} (p : Except E A) (f : A → Except E B) : Except E B :=
  match p with
  | .ok a => f a
  | .error e => .error e

/-- `p.catch(f)` on a settled promise. -/
def pCatch {E A : Type} (p : Except E A) (f : E → Except E A) : Except E A :=
  match p with
  | .ok a => .ok a
  | .error e => f e

/-- `handleMessageResponse(response, options)` (core.ts lines 57-70): the
`then` callback throws `result.error` when present and otherwise returns
`result.data`; the `catch` callback logs, notifies `onError`, and returns
`undefined`. -/
def handleMessageResponse {E T : Type} (response : Except E (MessageResponse E T)) :
    Except E (Option T) :=
  pCatch
    (pThen response (fun result =>
      match result.error with
      | some e => .error e
      | none => .ok result.data))
    (fun _ => .ok none)

/-- `sendMessageRequest(message, target, options)` (core.ts lines 41-49):
clears the last error, obtains the raw response promise from the chrome
messaging primitive (an external input here), and delegates to
`handleMessageResponse`. -/
def sendMessageRequest {E T : Type} (rawResponse : Except E (MessageResponse E T)) :
    Except E (Option T) :=
  handleMessageResponse rawResponse

/-!
Model of `createRouterCore` (main.ts lines 298-360).

The observable state is the closed-over `enabled` flag together with the
effect of the `addListener`/`removeListener` callbacks on the host
listener registry: `registered` is whether the router's `onMessage`
listener is currently registered, and `addCalls`/`removeCalls` count the
invocations of the two callbacks.
-/

/-- The state of one router built by `createRouterCore`. -/
structure CoreState where
  enabled : Bool
  registered : Bool
  addCalls : Nat
  removeCalls : Nat
deriving DecidableEq, Repr

/-- `enable()` (lines 328-333): `if (!enabled) { addListener(); enabled =
true }`. -/
def coreEnable (s : CoreState) : CoreState :=
  if s.enabled then s
  else ⟨true, true, s.addCalls + 1, s.removeCalls⟩

/-- `disable()` (lines 338-343): `if (enabled) { removeListener(); enabled
= false }`. -/
def coreDisable (s : CoreState) : CoreState :=
  if s.enabled then ⟨false, false, s.addCalls, s.removeCalls + 1⟩
  else s

/-- The construction-time steps of `createRouterCore` (lines 345-348):
`let enabled = initialEnabled; if (enabled) { enable() }`, starting from a
host registry with no listener registered. -/
def createRouterCoreState (initialEnabled : Bool) : CoreState :=
  let s : CoreState := ⟨initialEnabled, false, 0, 0⟩
  if s.enabled then coreEnable s else s

/-!
Claim-side specifications (written from the specification's words, for
comparison with the definitions translated from the source) and concrete
fixtures used in the claim theorems.
-/

/-- Spec 4.2: the route path the extractor is claimed to assign per
member: method shorthand and function-valued key/value properties yield
the member name with surrounding quotes stripped; every other member
yields no route. -/
def claimPathOf : ObjProp → Option String
  | .method nm _ _ => some (stripQuotes nm)
  | .propAssign nm (some (.arrowFn _ _ _)) => some (stripQuotes nm)
  | .propAssign nm (some (.funcExpr _ _ _)) => some (stripQuotes nm)
  | _ => none

/-- The corrected reading of the `paramText` clause: the full source text
of the handler's first declared parameter, or empty when there is none. -/
def claimFullParamText : List Param → String
  | [] => ""
  | p :: _ => p.text

/-- The `paramText` value per member under the corrected reading. -/
def claimParamSpec : ObjProp → Option String
  | .method _ params _ => some (claimFullParamText params)
  | .propAssign _ (some (.arrowFn params _ _)) => some (claimFullParamText params)
  | .propAssign _ (some (.funcExpr params _ _)) => some (claimFullParamText params)
  | _ => none

/-- A first parameter written `x: number` in the source: full text and
type-annotation text differ. -/
def cexParam : Param := ⟨"x: number", some "number"⟩

/-- A source file in which `a` is declared as an alias of itself. -/
def cycSF : SourceFile := ⟨[⟨"a", some (.ident "a")⟩], []⟩

/-- An object literal that spreads itself (via the variable `self`) and
declares one own route. -/
def selfLit : Node := .objectLit [.spreadAssign (.ident "self"), .method "m" [] "T"] "selfLit"

/-- The file declaring `self` as the self-spreading literal. -/
def selfSF : SourceFile := ⟨[⟨"self", some selfLit⟩], []⟩

/-- A shared literal with route `x`, spread into a literal that also
declares `x` itself: aggregation keeps both occurrences. -/
def sharedLit : Node := .objectLit [.method "x" [] "T"] "sharedLit"

/-- The file declaring `shared`. -/
def dupSF : SourceFile := ⟨[⟨"shared", some sharedLit⟩], []⟩

/-- The literal `{ ...shared, x() {} }`. -/
def dupLit : Node := .objectLit [.spreadAssign (.ident "shared"), .method "x" [] "T"] "dupLit"

/-- The literal `{ "": () => ... }`: its only route key is empty after
quote stripping. -/
def emptyKeyLit : Node := .objectLit [.propAssign "\"\"" (some (.arrowFn [] "T" "fnA"))] "litE"

/-- A file with no declarations. -/
def emptySF : SourceFile := ⟨[], []⟩

/-- The literal `{ m() {} }` used as a witness input. -/
def witLit : Node := .objectLit [.method "m" [] "T"] "witLit"

/-!
Closedness machinery: termination of the resolver and the aggregator rests
on the fact that every text they can insert into a visited set belongs to
the finite universe `textUniverse` of the initial node and source file.
-/

/-- Every subtext of `n` belongs to `U`. -/
def closedN (U : Finset String) (n : Node) : Prop :=
  ∀ t ∈ n.subtexts, t ∈ U

/-- Every text reachable through the file's declarations belongs to `U`. -/
def sfClosed (U : Finset String) (sf : SourceFile) : Prop :=
  ∀ t ∈ sf.allTexts, t ∈ U

/-- The three properties of a resolution step that the termination and
soundness arguments thread through the mutual recursion: the visited set
only grows, any node produced is closed in the universe, and the step does
not exhaust its fuel budget `B` while the visited set leaves fewer than
`B` universe texts unvisited. -/
def ResolverOk (U : Finset String) (B : Nat)
    (res : Node → List String → Option RState) : Prop :=
  ∀ n v, closedN U n →
    (∀ r v', res n v = some (r, v') →
      v ⊆ v' ∧ ∀ x, r = some x → closedN U x)
    ∧ ((U \ v.toFinset).card + 1 ≤ B → (res n v).isSome)

/-- Agreement between two resolution steps: the second completes every
call the first completes, with the same outcome.  Used to show the result
is independent of the fuel once the fuel suffices. -/
def Agrees (res₁ res₂ : Node → List String → Option RState) : Prop :=
  ∀ n v o, res₁ n v = some o → res₂ n v = some o

/-- The properties of an aggregation step threaded through the recursion
of `extractFromObject`: the visited set only grows and the fuel budget is
not exhausted while enough budget remains. -/
def AggOk (U : Finset String) (B : Nat)
    (efo : Node → List String → Option (List RouteInfo × List String)) : Prop :=
  ∀ obj v, closedN U obj →
    (∀ rs v', efo obj v = some (rs, v') → v ⊆ v')
    ∧ ((U \ v.toFinset).card + 1 ≤ B → (efo obj v).isSome)

/-- Agreement between two aggregation steps. -/
def AggAgrees (e₁ e₂ : Node → List String → Option (List RouteInfo × List String)) : Prop :=
  ∀ n v o, e₁ n v = some o → e₂ n v = some o

theorem getText_mem_subtexts (n : Node) : n.getText ∈ n.subtexts := by
  cases n <;> simp [Node.subtexts, Node.getText]

theorem closedN.getText_mem {U : Finset String} {n : Node} (h : closedN U n) :
    n.getText ∈ U :=
  h _ (getText_mem_subtexts n)

theorem subtexts_mem_nodesSubtexts {a : Node} {ns : List Node} (ha : a ∈ ns) :
    ∀ t ∈ a.subtexts, t ∈ nodesSubtexts ns := by
  induction ns with
  | nil => cases ha
  | cons n ns ih =>
    intro t ht
    rcases List.mem_cons.mp ha with h | h
    · subst h
      simp [nodesSubtexts]
      exact Or.inl ht
    · simp [nodesSubtexts]
      exact Or.inr (ih h t ht)

theorem subtexts_mem_propsSubtexts {p : ObjProp} {ps : List ObjProp} (hp : p ∈ ps) :
    ∀ t ∈ propSubtexts p, t ∈ propsSubtexts ps := by
  induction ps with
  | nil => cases hp
  | cons q qs ih =>
    intro t ht
    rcases List.mem_cons.mp hp with h | h
    · subst h
      simp [propsSubtexts]
      exact Or.inl ht
    · simp [propsSubtexts]
      exact Or.inr (ih h t ht)

theorem closedN_call_arg {U : Finset String} {c : Node} {args : List Node} {t : String}
    (h : closedN U (.call c args t)) {a : Node} (ha : a ∈ args) : closedN U a := by
  intro s hs
  exact h s (by
    simp [Node.subtexts]
    exact Or.inr (Or.inr (subtexts_mem_nodesSubtexts ha s hs)))

theorem closedN_propAccess_obj {U : Finset String} {o : Node} {nm t : String}
    (h : closedN U (.propAccess o nm t)) : closedN U o := by
  intro s hs
  exact h s (by simp [Node.subtexts, hs])

theorem closedN_objectLit_init {U : Finset String} {props : List ObjProp} {t nm : String}
    {i : Node} (h : closedN U (.objectLit props t))
    (hp : ObjProp.propAssign nm (some i) ∈ props) : closedN U i := by
  intro s hs
  exact h s (by
    simp [Node.subtexts]
    exact Or.inr (subtexts_mem_propsSubtexts hp s (by simp [propSubtexts, hs])))

theorem closedN_objectLit_spread {U : Finset String} {props : List ObjProp} {t : String}
    {e : Node} (h : closedN U (.objectLit props t))
    (hp : ObjProp.spreadAssign e ∈ props) : closedN U e := by
  intro s hs
  exact h s (by
    simp [Node.subtexts]
    exact Or.inr (subtexts_mem_propsSubtexts hp s (by simp [propSubtexts, hs])))

theorem findVarInit_mem {ds : List VariableDeclaration} {nm : String} {i : Node}
    (h : findVarInit ds nm = some i) : ∃ d ∈ ds, d.init = some i := by
  induction ds with
  | nil => simp [findVarInit] at h
  | cons d ds ih =>
    by_cases hd : d.name = nm
    · rcases hinit : d.init with _ | j
      · simp [findVarInit, hd, hinit] at h
        rcases ih h with ⟨d', hd', hi⟩
        exact ⟨d', List.mem_cons_of_mem _ hd', hi⟩
      · simp [findVarInit, hd, hinit] at h
        exact ⟨d, List.mem_cons_self _ _, by simp [hinit, h]⟩
    · simp [findVarInit, hd] at h
      rcases ih h with ⟨d', hd', hi⟩
      exact ⟨d', List.mem_cons_of_mem _ hd', hi⟩

theorem sfClosed_findVarInit {U : Finset String} {sf : SourceFile} {nm : String} {i : Node}
    (hsf : sfClosed U sf) (h : findVarInit sf.variableDeclarations nm = some i) :
    closedN U i := by
  rcases findVarInit_mem h with ⟨d, hd, hi⟩
  intro s hs
  apply hsf
  simp [SourceFile.allTexts]
  exact Or.inl ⟨i, ⟨d, hd, hi⟩, hs⟩

theorem sfClosed_return {U : Finset String} {sf : SourceFile} {f : FunctionDeclaration}
    {e : Node} (hsf : sfClosed U sf) (hf : f ∈ sf.functions)
    (he : some e ∈ f.returnExprs) : closedN U e := by
  intro s hs
  apply hsf
  simp [SourceFile.allTexts]
  refine Or.inr ⟨f, hf, e, ?_, hs⟩
  simpa using List.mem_filterMap.mpr ⟨some e, he, rfl⟩

theorem card_sdiff_mono {U : Finset String} {v v' : List String} (h : v ⊆ v') :
    (U \ v'.toFinset).card ≤ (U \ v.toFinset).card := by
  apply Finset.card_le_card
  apply Finset.sdiff_subset_sdiff (Finset.Subset.refl U)
  intro x hx
  rw [List.mem_toFinset] at hx ⊢
  exact h hx

theorem card_sdiff_cons {U : Finset String} {v : List String} {t : String}
    (htU : t ∈ U) (htv : t ∉ v) :
    (U \ (t :: v).toFinset).card + 1 = (U \ v.toFinset).card := by
  have hmem : t ∈ U \ v.toFinset := by
    rw [Finset.mem_sdiff, List.mem_toFinset]
    exact ⟨htU, htv⟩
  rw [List.toFinset_cons, Finset.sdiff_insert, Finset.card_erase_of_mem hmem]
  have hpos : 0 < (U \ v.toFinset).card := Finset.card_pos.mpr ⟨t, hmem⟩
  omega

theorem returnsLoop_ok {U : Finset String} {B : Nat}
    {res : Node → List String → Option RState} (hres : ResolverOk U B res) :
    ∀ rets : List (Option Node), (∀ e, some e ∈ rets → closedN U e) →
    ∀ v : List String,
      (∀ r v', returnsLoop res rets v = some (r, v') →
        v ⊆ v' ∧ ∀ x, r = some x → closedN U x)
      ∧ ((U \ v.toFinset).card + 1 ≤ B → (returnsLoop res rets v).isSome) := by
  intro rets
  induction rets with
  | nil =>
    intro _ v
    constructor
    · intro r v' h
      simp only [returnsLoop, Option.some.injEq, Prod.mk.injEq] at h
      obtain ⟨rfl, rfl⟩ := h
      exact ⟨List.Subset.refl v, by intro x hx; cases hx⟩
    · intro _
      simp [returnsLoop]
  | cons o rs ih =>
    intro hrets v
    have hrs : ∀ e, some e ∈ rs → closedN U e := fun e he => hrets e (List.mem_cons_of_mem _ he)
    cases o with
    | none =>
      simp only [returnsLoop]
      exact ih hrs v
    | some e =>
      have he : closedN U e := hrets e (List.mem_cons_self _ _)
      have hstep := hres e v he
      rcases hr : res e v with _ | ⟨r, v₁⟩
      · constructor
        · intro r' v' h
          simp [returnsLoop, hr] at h
        · intro hcard
          have := hstep.2 hcard
          rw [hr] at this
          simp at this
      · have hmono := hstep.1 r v₁ hr
        cases r with
        | some x =>
          constructor
          · intro r' v' h
            simp only [returnsLoop, hr, Option.some.injEq, Prod.mk.injEq] at h
            obtain ⟨rfl, rfl⟩ := h
            exact ⟨hmono.1, fun y hy => by cases hy; exact hmono.2 x rfl⟩
          · intro _
            simp [returnsLoop, hr]
        | none =>
          have hih := ih hrs v₁
          constructor
          · intro r' v' h
            simp only [returnsLoop, hr] at h
            have hres' := hih.1 r' v' h
            exact ⟨List.Subset.trans hmono.1 hres'.1, hres'.2⟩
          · intro hcard
            simp only [returnsLoop, hr]
            apply hih.2
            have := card_sdiff_mono (U := U) hmono.1
            omega

theorem funcsLoop_ok {U : Finset String} {B : Nat}
    {res : Node → List String → Option RState} (hres : ResolverOk U B res) (nm : String) :
    ∀ funcs : List FunctionDeclaration,
      (∀ f ∈ funcs, ∀ e, some e ∈ f.returnExprs → closedN U e) →
    ∀ v : List String,
      (∀ r v', funcsLoop res nm funcs v = some (r, v') →
        v ⊆ v' ∧ ∀ x, r = some x → closedN U x)
      ∧ ((U \ v.toFinset).card + 1 ≤ B → (funcsLoop res nm funcs v).isSome) := by
  intro funcs
  induction funcs with
  | nil =>
    intro _ v
    constructor
    · intro r v' h
      simp only [funcsLoop, Option.some.injEq, Prod.mk.injEq] at h
      obtain ⟨rfl, rfl⟩ := h
      exact ⟨List.Subset.refl v, by intro x hx; cases hx⟩
    · intro _
      simp [funcsLoop]
  | cons f fs ih =>
    intro hfs v
    have hfs' : ∀ g ∈ fs, ∀ e, some e ∈ g.returnExprs → closedN U e :=
      fun g hg => hfs g (List.mem_cons_of_mem _ hg)
    by_cases hname : f.name = some nm
    · have hloop := returnsLoop_ok hres f.returnExprs
        (hfs f (List.mem_cons_self _ _)) v
      rcases hr : returnsLoop res f.returnExprs v with _ | ⟨r, v₁⟩
      · constructor
        · intro r' v' h
          simp [funcsLoop, hname, hr] at h
        · intro hcard
          have := hloop.2 hcard
          rw [hr] at this
          simp at this
      · have hmono := hloop.1 r v₁ hr
        cases r with
        | some x =>
          constructor
          · intro r' v' h
            simp only [funcsLoop, hname, if_pos rfl, hr, Option.some.injEq,
              Prod.mk.injEq] at h
            obtain ⟨rfl, rfl⟩ := h
            exact ⟨hmono.1, fun y hy => by cases hy; exact hmono.2 x rfl⟩
          · intro _
            simp [funcsLoop, hname, hr]
        | none =>
          have hih := ih hfs' v₁
          constructor
          · intro r' v' h
            simp only [funcsLoop, hname, if_pos rfl, hr] at h
            have hres' := hih.1 r' v' h
            exact ⟨List.Subset.trans hmono.1 hres'.1, hres'.2⟩
          · intro hcard
            simp only [funcsLoop, hname, if_pos rfl, hr]
            apply hih.2
            have := card_sdiff_mono (U := U) hmono.1
            omega
    · simp only [funcsLoop, hname, if_neg hname]
      exact ih hfs' v

theorem resolveIdentifier_ok {U : Finset String} {B : Nat}
    {res : Node → List String → Option RState} {sf : SourceFile}
    (hres : ResolverOk U B res) (hsf : sfClosed U sf)
    {node : Node} (v : List String) (_hn : closedN U node) :
    (∀ r v', resolveIdentifier res node sf v = some (r, v') →
      v ⊆ v' ∧ ∀ x, r = some x → closedN U x)
    ∧ ((U \ v.toFinset).card + 1 ≤ B → (resolveIdentifier res node sf v).isSome) := by
  have hfuncs : ∀ f ∈ sf.functions, ∀ e, some e ∈ f.returnExprs → closedN U e :=
    fun f hf e he => sfClosed_return hsf hf he
  cases node with
  | ident nm =>
    rcases hfv : findVarInit sf.variableDeclarations nm with _ | init
    · simp only [resolveIdentifier, hfv]
      exact funcsLoop_ok hres nm sf.functions hfuncs v
    · simp only [resolveIdentifier, hfv]
      exact hres init v (sfClosed_findVarInit hsf hfv)
  | objectLit props t =>
    refine ⟨?_, ?_⟩
    · intro r v' h
      simp only [resolveIdentifier, Option.some.injEq, Prod.mk.injEq] at h
      obtain ⟨rfl, rfl⟩ := h
      exact ⟨List.Subset.refl v, by intro x hx; cases hx⟩
    · intro _; simp [resolveIdentifier]
  | call c args t =>
    refine ⟨?_, ?_⟩
    · intro r v' h
      simp only [resolveIdentifier, Option.some.injEq, Prod.mk.injEq] at h
      obtain ⟨rfl, rfl⟩ := h
      exact ⟨List.Subset.refl v, by intro x hx; cases hx⟩
    · intro _; simp [resolveIdentifier]
  | propAccess o nm t =>
    refine ⟨?_, ?_⟩
    · intro r v' h
      simp only [resolveIdentifier, Option.some.injEq, Prod.mk.injEq] at h
      obtain ⟨rfl, rfl⟩ := h
      exact ⟨List.Subset.refl v, by intro x hx; cases hx⟩
    · intro _; simp [resolveIdentifier]
  | arrowFn p r t =>
    refine ⟨?_, ?_⟩
    · intro r v' h
      simp only [resolveIdentifier, Option.some.injEq, Prod.mk.injEq] at h
      obtain ⟨rfl, rfl⟩ := h
      exact ⟨List.Subset.refl v, by intro x hx; cases hx⟩
    · intro _; simp [resolveIdentifier]
  | funcExpr p r t =>
    refine ⟨?_, ?_⟩
    · intro r v' h
      simp only [resolveIdentifier, Option.some.injEq, Prod.mk.injEq] at h
      obtain ⟨rfl, rfl⟩ := h
      exact ⟨List.Subset.refl v, by intro x hx; cases hx⟩
    · intro _; simp [resolveIdentifier]
  | other t =>
    refine ⟨?_, ?_⟩
    · intro r v' h
      simp only [resolveIdentifier, Option.some.injEq, Prod.mk.injEq] at h
      obtain ⟨rfl, rfl⟩ := h
      exact ⟨List.Subset.refl v, by intro x hx; cases hx⟩
    · intro _; simp [resolveIdentifier]

theorem resolveFunctionCall_ok {U : Finset String} {B : Nat}
    {res : Node → List String → Option RState} {sf : SourceFile}
    (hres : ResolverOk U B res) (hsf : sfClosed U sf)
    {node : Node} (v : List String) (hn : closedN U node) :
    (∀ r v', resolveFunctionCall res node sf v = some (r, v') →
      v ⊆ v' ∧ ∀ x, r = some x → closedN U x)
    ∧ ((U \ v.toFinset).card + 1 ≤ B → (resolveFunctionCall res node sf v).isSome) := by
  have hfuncs : ∀ f ∈ sf.functions, ∀ e, some e ∈ f.returnExprs → closedN U e :=
    fun f hf e he => sfClosed_return hsf hf he
  have htriv : (∀ r v', (some (none, v) : Option RState) = some (r, v') →
      v ⊆ v' ∧ ∀ x, r = some x → closedN U x)
      ∧ ((U \ v.toFinset).card + 1 ≤ B → (some (none, v) : Option RState).isSome) := by
    refine ⟨?_, fun _ => rfl⟩
    intro r v' h
    simp only [Option.some.injEq, Prod.mk.injEq] at h
    obtain ⟨rfl, rfl⟩ := h
    exact ⟨List.Subset.refl v, by intro x hx; cases hx⟩
  cases node with
  | call callee args t =>
    cases callee with
    | ident fn =>
      by_cases hfn : fn = "defineMessageRoutes" ∨ fn = "Object.assign" ∨ fn = "merge"
      · cases args with
        | nil =>
          simp only [resolveFunctionCall, if_pos hfn]
          exact funcsLoop_ok hres fn sf.functions hfuncs v
        | cons a args' =>
          simp only [resolveFunctionCall, if_pos hfn]
          exact hres a v (closedN_call_arg hn (List.mem_cons_self _ _))
      · simp only [resolveFunctionCall, if_neg hfn]
        exact funcsLoop_ok hres fn sf.functions hfuncs v
    | objectLit p t' => exact htriv
    | call c' a' t' => exact htriv
    | propAccess o' n' t' => exact htriv
    | arrowFn p' r' t' => exact htriv
    | funcExpr p' r' t' => exact htriv
    | other t' => exact htriv
  | ident nm => exact htriv
  | objectLit props t => exact htriv
  | propAccess o nm t => exact htriv
  | arrowFn p r t => exact htriv
  | funcExpr p r t => exact htriv
  | other t => exact htriv

theorem resolvePropertyAccess_ok {U : Finset String} {B : Nat}
    {res : Node → List String → Option RState} {sf : SourceFile}
    (hres : ResolverOk U B res) (_hsf : sfClosed U sf)
    {node : Node} (v : List String) (hn : closedN U node) :
    (∀ r v', resolvePropertyAccess res node sf v = some (r, v') →
      v ⊆ v' ∧ ∀ x, r = some x → closedN U x)
    ∧ ((U \ v.toFinset).card + 1 ≤ B → (resolvePropertyAccess res node sf v).isSome) := by
  have htriv : ∀ w : List String, v ⊆ w →
      (∀ r v', (some (none, w) : Option RState) = some (r, v') →
        v ⊆ v' ∧ ∀ x, r = some x → closedN U x)
      ∧ ((U \ v.toFinset).card + 1 ≤ B → (some (none, w) : Option RState).isSome) := by
    intro w hw
    refine ⟨?_, fun _ => rfl⟩
    intro r v' h
    simp only [Option.some.injEq, Prod.mk.injEq] at h
    obtain ⟨rfl, rfl⟩ := h
    exact ⟨hw, by intro x hx; cases hx⟩
  cases node with
  | propAccess o nm t =>
    have ho : closedN U o := closedN_propAccess_obj hn
    have hstep := hres o v ho
    rcases hr : res o v with _ | ⟨r, v₁⟩
    · constructor
      · intro r' v' h
        simp [resolvePropertyAccess, hr] at h
      · intro hcard
        have := hstep.2 hcard
        rw [hr] at this
        simp at this
    · have hmono := hstep.1 r v₁ hr
      cases r with
      | none =>
        simp only [resolvePropertyAccess, hr]
        exact htriv v₁ hmono.1
      | some robj =>
        have hrobj : closedN U robj := hmono.2 robj rfl
        cases robj with
        | objectLit props t' =>
          rcases hgp : getProperty props nm with _ | p
          · simp only [resolvePropertyAccess, hr, hgp]
            exact htriv v₁ hmono.1
          · cases p with
            | propAssign pn pinit =>
              cases pinit with
              | none =>
                simp only [resolvePropertyAccess, hr, hgp]
                exact htriv v₁ hmono.1
              | some init =>
                have hpmem : ObjProp.propAssign pn (some init) ∈ props :=
                  List.mem_of_find?_eq_some hgp
                have hinit : closedN U init := closedN_objectLit_init hrobj hpmem
                have hstep₂ := hres init v₁ hinit
                simp only [resolvePropertyAccess, hr, hgp]
                constructor
                · intro r' v' h
                  have hres' := hstep₂.1 r' v' h
                  exact ⟨List.Subset.trans hmono.1 hres'.1, hres'.2⟩
                · intro hcard
                  apply hstep₂.2
                  have := card_sdiff_mono (U := U) hmono.1
                  omega
            | method mn mp mr =>
              simp only [resolvePropertyAccess, hr, hgp]
              exact htriv v₁ hmono.1
            | spreadAssign e =>
              simp only [resolvePropertyAccess, hr, hgp]
              exact htriv v₁ hmono.1
            | otherProp onm ot =>
              simp only [resolvePropertyAccess, hr, hgp]
              exact htriv v₁ hmono.1
        | ident n' =>
          simp only [resolvePropertyAccess, hr]
          exact htriv v₁ hmono.1
        | call c' a' t' =>
          simp only [resolvePropertyAccess, hr]
          exact htriv v₁ hmono.1
        | propAccess o' n' t' =>
          simp only [resolvePropertyAccess, hr]
          exact htriv v₁ hmono.1
        | arrowFn p' r' t' =>
          simp only [resolvePropertyAccess, hr]
          exact htriv v₁ hmono.1
        | funcExpr p' r' t' =>
          simp only [resolvePropertyAccess, hr]
          exact htriv v₁ hmono.1
        | other t' =>
          simp only [resolvePropertyAccess, hr]
          exact htriv v₁ hmono.1
  | ident nm => exact htriv v (List.Subset.refl v)
  | objectLit props t => exact htriv v (List.Subset.refl v)
  | call c args t => exact htriv v (List.Subset.refl v)
  | arrowFn p r t => exact htriv v (List.Subset.refl v)
  | funcExpr p r t => exact htriv v (List.Subset.refl v)
  | other t => exact htriv v (List.Subset.refl v)

theorem resolveNodeRecursively_ok {U : Finset String} {sf : SourceFile} (hsf : sfClosed U sf) :
    ∀ fuel : Nat, ResolverOk U fuel (fun n v => resolveNodeRecursively fuel n sf v) := by
  intro fuel
  induction fuel with
  | zero =>
    intro n v _
    constructor
    · intro r v' h
      simp [resolveNodeRecursively] at h
    · intro hcard
      omega
  | succ f ih =>
    intro n v hn
    by_cases hvis : n.getText ∈ v
    · constructor
      · intro r v' h
        simp only [resolveNodeRecursively, if_pos hvis, Option.some.injEq,
          Prod.mk.injEq] at h
        obtain ⟨rfl, rfl⟩ := h
        exact ⟨List.Subset.refl v, by intro x hx; cases hx⟩
      · intro _
        simp [resolveNodeRecursively, hvis]
    · have htU : n.getText ∈ U := hn.getText_mem
      have hsub : v ⊆ n.getText :: v := List.subset_cons_self _ _
      have hbudget : (U \ v.toFinset).card + 1 ≤ f + 1 →
          (U \ (n.getText :: v).toFinset).card + 1 ≤ f := by
        intro hcard
        have := card_sdiff_cons (U := U) htU hvis
        omega
      cases n with
      | objectLit props t =>
        constructor
        · intro r v' h
          simp only [resolveNodeRecursively, if_neg hvis, Option.some.injEq,
            Prod.mk.injEq] at h
          obtain ⟨rfl, rfl⟩ := h
          refine ⟨hsub, ?_⟩
          intro x hx
          cases hx
          exact hn
        · intro _
          simp [resolveNodeRecursively, hvis]
      | ident nm =>
        have haux := resolveIdentifier_ok ih hsf (Node.getText (.ident nm) :: v) hn
        constructor
        · intro r v' h
          simp only [resolveNodeRecursively, if_neg hvis] at h
          have hres' := haux.1 r v' h
          exact ⟨List.Subset.trans hsub hres'.1, hres'.2⟩
        · intro hcard
          simp only [resolveNodeRecursively, if_neg hvis]
          exact haux.2 (hbudget hcard)
      | call c args t =>
        have haux := resolveFunctionCall_ok ih hsf (Node.getText (.call c args t) :: v) hn
        constructor
        · intro r v' h
          simp only [resolveNodeRecursively, if_neg hvis] at h
          have hres' := haux.1 r v' h
          exact ⟨List.Subset.trans hsub hres'.1, hres'.2⟩
        · intro hcard
          simp only [resolveNodeRecursively, if_neg hvis]
          exact haux.2 (hbudget hcard)
      | propAccess o nm t =>
        have haux := resolvePropertyAccess_ok ih hsf (Node.getText (.propAccess o nm t) :: v) hn
        constructor
        · intro r v' h
          simp only [resolveNodeRecursively, if_neg hvis] at h
          have hres' := haux.1 r v' h
          exact ⟨List.Subset.trans hsub hres'.1, hres'.2⟩
        · intro hcard
          simp only [resolveNodeRecursively, if_neg hvis]
          exact haux.2 (hbudget hcard)
      | arrowFn p r t =>
        constructor
        · intro r' v' h
          simp only [resolveNodeRecursively, if_neg hvis, Option.some.injEq,
            Prod.mk.injEq] at h
          obtain ⟨rfl, rfl⟩ := h
          exact ⟨hsub, by intro x hx; cases hx⟩
        · intro _
          simp [resolveNodeRecursively, hvis]
      | funcExpr p r t =>
        constructor
        · intro r' v' h
          simp only [resolveNodeRecursively, if_neg hvis, Option.some.injEq,
            Prod.mk.injEq] at h
          obtain ⟨rfl, rfl⟩ := h
          exact ⟨hsub, by intro x hx; cases hx⟩
        · intro _
          simp [resolveNodeRecursively, hvis]
      | other t =>
        constructor
        · intro r v' h
          simp only [resolveNodeRecursively, if_neg hvis, Option.some.injEq,
            Prod.mk.injEq] at h
          obtain ⟨rfl, rfl⟩ := h
          exact ⟨hsub, by intro x hx; cases hx⟩
        · intro _
          simp [resolveNodeRecursively, hvis]

theorem closedN_textUniverse (node : Node) (sf : SourceFile) :
    closedN (textUniverse node sf) node := by
  intro t ht
  simp [textUniverse]
  exact Or.inl ht

theorem sfClosed_textUniverse (node : Node) (sf : SourceFile) :
    sfClosed (textUniverse node sf) sf := by
  intro t ht
  simp [textUniverse]
  exact Or.inr ht

/-- Termination of `resolveVariableToObjectLiteral`: the fuel bound
computed from the text universe is never exhausted, for any start node,
source file and initial visited set. -/
theorem resolve_no_gas (node : Node) (sf : SourceFile) (v : List String) :
    (resolveNodeRecursively (resolveBound node sf) node sf v).isSome := by
  have h := resolveNodeRecursively_ok (sfClosed_textUniverse node sf) (resolveBound node sf)
    node v (closedN_textUniverse node sf)
  apply h.2
  have hle : (textUniverse node sf \ v.toFinset).card ≤ (textUniverse node sf).card :=
    Finset.card_le_card (Finset.sdiff_subset)
  simp only [resolveBound]
  omega

/-- Soundness corollary: any node produced by resolution is closed in any
universe containing the inputs. -/
theorem resolve_result_closed {U : Finset String} {sf : SourceFile} {node r : Node}
    (hn : closedN U node) (hsf : sfClosed U sf)
    (h : resolveVariableToObjectLiteral node sf = some r) : closedN U r := by
  unfold resolveVariableToObjectLiteral at h
  rcases hr : resolveNodeRecursively (resolveBound node sf) node sf [] with _ | ⟨ro, v'⟩
  · rw [hr] at h
    simp at h
  · rw [hr] at h
    have hok := resolveNodeRecursively_ok hsf (resolveBound node sf) node [] hn
    have := (hok.1 ro v' hr).2
    cases ro with
    | none => simp at h
    | some x =>
      obtain rfl : x = r := by simpa using h
      exact this x rfl

theorem returnsLoop_agrees {res₁ res₂ : Node → List String → Option RState}
    (h : Agrees res₁ res₂) :
    ∀ rets v o, returnsLoop res₁ rets v = some o → returnsLoop res₂ rets v = some o := by
  intro rets
  induction rets with
  | nil =>
    intro v o ho
    simpa [returnsLoop] using ho
  | cons oe rs ih =>
    intro v o ho
    cases oe with
    | none =>
      simp only [returnsLoop] at ho ⊢
      exact ih v o ho
    | some e =>
      rcases hr : res₁ e v with _ | ⟨r, v₁⟩
      · simp [returnsLoop, hr] at ho
      · have hr₂ := h e v _ hr
        cases r with
        | some x =>
          simp only [returnsLoop, hr] at ho
          simp only [returnsLoop, hr₂]
          exact ho
        | none =>
          simp only [returnsLoop, hr] at ho
          simp only [returnsLoop, hr₂]
          exact ih v₁ o ho

theorem funcsLoop_agrees {res₁ res₂ : Node → List String → Option RState}
    (h : Agrees res₁ res₂) (nm : String) :
    ∀ funcs v o, funcsLoop res₁ nm funcs v = some o → funcsLoop res₂ nm funcs v = some o := by
  intro funcs
  induction funcs with
  | nil =>
    intro v o ho
    simpa [funcsLoop] using ho
  | cons f fs ih =>
    intro v o ho
    by_cases hname : f.name = some nm
    · rcases hr : returnsLoop res₁ f.returnExprs v with _ | ⟨r, v₁⟩
      · simp [funcsLoop, hname, hr] at ho
      · have hr₂ := returnsLoop_agrees h f.returnExprs v _ hr
        cases r with
        | some x =>
          simp only [funcsLoop, hname, if_pos rfl, hr] at ho
          simp only [funcsLoop, hname, if_pos rfl, hr₂]
          exact ho
        | none =>
          simp only [funcsLoop, hname, if_pos rfl, hr] at ho
          simp only [funcsLoop, hname, if_pos rfl, hr₂]
          exact ih v₁ o ho
    · simp only [funcsLoop, if_neg hname] at ho ⊢
      exact ih v o ho

theorem resolveIdentifier_agrees {res₁ res₂ : Node → List String → Option RState}
    (h : Agrees res₁ res₂) (node : Node) (sf : SourceFile) :
    ∀ v o, resolveIdentifier res₁ node sf v = some o →
      resolveIdentifier res₂ node sf v = some o := by
  intro v o ho
  cases node with
  | ident nm =>
    rcases hfv : findVarInit sf.variableDeclarations nm with _ | init
    · simp only [resolveIdentifier, hfv] at ho ⊢
      exact funcsLoop_agrees h nm sf.functions v o ho
    · simp only [resolveIdentifier, hfv] at ho ⊢
      exact h init v o ho
  | objectLit props t => exact ho
  | call c args t => exact ho
  | propAccess obj nm t => exact ho
  | arrowFn p r t => exact ho
  | funcExpr p r t => exact ho
  | other t => exact ho

theorem resolveFunctionCall_agrees {res₁ res₂ : Node → List String → Option RState}
    (h : Agrees res₁ res₂) (node : Node) (sf : SourceFile) :
    ∀ v o, resolveFunctionCall res₁ node sf v = some o →
      resolveFunctionCall res₂ node sf v = some o := by
  intro v o ho
  cases node with
  | call callee args t =>
    cases callee with
    | ident fn =>
      by_cases hfn : fn = "defineMessageRoutes" ∨ fn = "Object.assign" ∨ fn = "merge"
      · cases args with
        | nil =>
          simp only [resolveFunctionCall, if_pos hfn] at ho ⊢
          exact funcsLoop_agrees h fn sf.functions v o ho
        | cons a args' =>
          simp only [resolveFunctionCall, if_pos hfn] at ho ⊢
          exact h a v o ho
      · simp only [resolveFunctionCall, if_neg hfn] at ho ⊢
        exact funcsLoop_agrees h fn sf.functions v o ho
    | objectLit p t' => exact ho
    | call c' a' t' => exact ho
    | propAccess o' n' t' => exact ho
    | arrowFn p' r' t' => exact ho
    | funcExpr p' r' t' => exact ho
    | other t' => exact ho
  | ident nm => exact ho
  | objectLit props t => exact ho
  | propAccess obj nm t => exact ho
  | arrowFn p r t => exact ho
  | funcExpr p r t => exact ho
  | other t => exact ho

theorem resolvePropertyAccess_agrees {res₁ res₂ : Node → List String → Option RState}
    (h : Agrees res₁ res₂) (node : Node) (sf : SourceFile) :
    ∀ v o, resolvePropertyAccess res₁ node sf v = some o →
      resolvePropertyAccess res₂ node sf v = some o := by
  intro v o ho
  cases node with
  | propAccess obj nm t =>
    rcases hr : res₁ obj v with _ | ⟨r, v₁⟩
    · simp [resolvePropertyAccess, hr] at ho
    · have hr₂ := h obj v _ hr
      cases r with
      | none =>
        simp only [resolvePropertyAccess, hr] at ho
        simp only [resolvePropertyAccess, hr₂]
        exact ho
      | some robj =>
        cases robj with
        | objectLit props t' =>
          rcases hgp : getProperty props nm with _ | p
          · simp only [resolvePropertyAccess, hr, hgp] at ho
            simp only [resolvePropertyAccess, hr₂, hgp]
            exact ho
          · cases p with
            | propAssign pn pinit =>
              cases pinit with
              | none =>
                simp only [resolvePropertyAccess, hr, hgp] at ho
                simp only [resolvePropertyAccess, hr₂, hgp]
                exact ho
              | some init =>
                simp only [resolvePropertyAccess, hr, hgp] at ho
                simp only [resolvePropertyAccess, hr₂, hgp]
                exact h init v₁ o ho
            | method mn mp mr =>
              simp only [resolvePropertyAccess, hr, hgp] at ho
              simp only [resolvePropertyAccess, hr₂, hgp]
              exact ho
            | spreadAssign e =>
              simp only [resolvePropertyAccess, hr, hgp] at ho
              simp only [resolvePropertyAccess, hr₂, hgp]
              exact ho
            | otherProp onm ot =>
              simp only [resolvePropertyAccess, hr, hgp] at ho
              simp only [resolvePropertyAccess, hr₂, hgp]
              exact ho
        | ident n' =>
          simp only [resolvePropertyAccess, hr] at ho
          simp only [resolvePropertyAccess, hr₂]
          exact ho
        | call c' a' t' =>
          simp only [resolvePropertyAccess, hr] at ho
          simp only [resolvePropertyAccess, hr₂]
          exact ho
        | propAccess o' n' t' =>
          simp only [resolvePropertyAccess, hr] at ho
          simp only [resolvePropertyAccess, hr₂]
          exact ho
        | arrowFn p' r' t' =>
          simp only [resolvePropertyAccess, hr] at ho
          simp only [resolvePropertyAccess, hr₂]
          exact ho
        | funcExpr p' r' t' =>
          simp only [resolvePropertyAccess, hr] at ho
          simp only [resolvePropertyAccess, hr₂]
          exact ho
        | other t' =>
          simp only [resolvePropertyAccess, hr] at ho
          simp only [resolvePropertyAccess, hr₂]
          exact ho
  | ident nm => exact ho
  | objectLit props t => exact ho
  | call c args t => exact ho
  | arrowFn p r t => exact ho
  | funcExpr p r t => exact ho
  | other t => exact ho

/-- Fuel monotonicity: once the resolver completes at some fuel, more fuel
does not change the outcome. -/
theorem resolveNodeRecursively_mono {sf : SourceFile} :
    ∀ f g : Nat, f ≤ g →
      Agrees (fun n v => resolveNodeRecursively f n sf v)
        (fun n v => resolveNodeRecursively g n sf v) := by
  intro f
  induction f with
  | zero =>
    intro g _ n v o h
    simp [resolveNodeRecursively] at h
  | succ f ih =>
    intro g hg n v o h
    obtain ⟨g', rfl⟩ : ∃ g', g = g' + 1 := ⟨g - 1, by omega⟩
    have hagree : Agrees (fun n v => resolveNodeRecursively f n sf v)
        (fun n v => resolveNodeRecursively g' n sf v) := ih g' (by omega)
    by_cases hvis : n.getText ∈ v
    · simp only [resolveNodeRecursively, if_pos hvis] at h ⊢
      exact h
    · cases n with
      | objectLit props t =>
        simp only [resolveNodeRecursively, if_neg hvis] at h ⊢
        exact h
      | ident nm =>
        simp only [resolveNodeRecursively, if_neg hvis] at h ⊢
        exact resolveIdentifier_agrees hagree _ sf _ _ h
      | call c args t =>
        simp only [resolveNodeRecursively, if_neg hvis] at h ⊢
        exact resolveFunctionCall_agrees hagree _ sf _ _ h
      | propAccess obj nm t =>
        simp only [resolveNodeRecursively, if_neg hvis] at h ⊢
        exact resolvePropertyAccess_agrees hagree _ sf _ _ h
      | arrowFn p r t =>
        simp only [resolveNodeRecursively, if_neg hvis] at h ⊢
        exact h
      | funcExpr p r t =>
        simp only [resolveNodeRecursively, if_neg hvis] at h ⊢
        exact h
      | other t =>
        simp only [resolveNodeRecursively, if_neg hvis] at h ⊢
        exact h

theorem spreadsLoop_ok {U : Finset String} {B : Nat}
    {efo : Node → List String → Option (List RouteInfo × List String)} {sf : SourceFile}
    (hefo : AggOk U B efo) (hsf : sfClosed U sf) :
    ∀ props : List ObjProp, (∀ e, ObjProp.spreadAssign e ∈ props → closedN U e) →
    ∀ v : List String,
      (∀ rs v', spreadsLoop efo sf props v = some (rs, v') → v ⊆ v')
      ∧ ((U \ v.toFinset).card + 1 ≤ B → (spreadsLoop efo sf props v).isSome) := by
  intro props
  induction props with
  | nil =>
    intro _ v
    constructor
    · intro rs v' h
      simp only [spreadsLoop, Option.some.injEq, Prod.mk.injEq] at h
      obtain ⟨rfl, rfl⟩ := h
      exact List.Subset.refl v
    · intro _
      simp [spreadsLoop]
  | cons p ps ih =>
    intro hprops v
    have hps : ∀ e, ObjProp.spreadAssign e ∈ ps → closedN U e :=
      fun e he => hprops e (List.mem_cons_of_mem _ he)
    cases p with
    | spreadAssign e =>
      have he : closedN U e := hprops e (List.mem_cons_self _ _)
      rcases hrv : resolveVariableToObjectLiteral e sf with _ | resolved
      · simp only [spreadsLoop, hrv]
        exact ih hps v
      · have hresolved : closedN U resolved := resolve_result_closed he hsf hrv
        have hstep := hefo resolved v hresolved
        rcases hr : efo resolved v with _ | ⟨rs₁, v₁⟩
        · constructor
          · intro rs v' h
            simp [spreadsLoop, hrv, hr] at h
          · intro hcard
            have := hstep.2 hcard
            rw [hr] at this
            simp at this
        · have hmono := hstep.1 rs₁ v₁ hr
          have hih := ih hps v₁
          constructor
          · intro rs v' h
            simp only [spreadsLoop, hrv, hr] at h
            rcases hsl : spreadsLoop efo sf ps v₁ with _ | ⟨rs₂, v₂⟩
            · rw [hsl] at h
              simp at h
            · rw [hsl] at h
              simp only [Option.some.injEq, Prod.mk.injEq] at h
              obtain ⟨_, rfl⟩ := h
              exact List.Subset.trans hmono (hih.1 rs₂ v₂ hsl)
          · intro hcard
            simp only [spreadsLoop, hrv, hr]
            have hcard₁ : (U \ v₁.toFinset).card + 1 ≤ B := by
              have := card_sdiff_mono (U := U) hmono
              omega
            have := hih.2 hcard₁
            rcases hsl : spreadsLoop efo sf ps v₁ with _ | ⟨rs₂, v₂⟩
            · rw [hsl] at this
              simp at this
            · simp [hsl]
    | method mn mp mr =>
      simp only [spreadsLoop]
      exact ih hps v
    | propAssign pn pinit =>
      simp only [spreadsLoop]
      exact ih hps v
    | otherProp onm ot =>
      simp only [spreadsLoop]
      exact ih hps v

theorem extractFromObject_ok {U : Finset String} {sf : SourceFile} {fp : String}
    (hsf : sfClosed U sf) :
    ∀ fuel : Nat, AggOk U fuel (fun n v => extractFromObject sf fp fuel n v) := by
  intro fuel
  induction fuel with
  | zero =>
    intro obj v _
    constructor
    · intro rs v' h
      simp [extractFromObject] at h
    · intro hcard
      omega
  | succ f ih =>
    intro obj v hobj
    cases obj with
    | objectLit props t =>
      by_cases hvis : t ∈ v
      · constructor
        · intro rs v' h
          simp only [extractFromObject, if_pos hvis, Option.some.injEq, Prod.mk.injEq] at h
          obtain ⟨rfl, rfl⟩ := h
          exact List.Subset.refl v
        · intro _
          simp [extractFromObject, hvis]
      · have htU : t ∈ U := by
          have := hobj.getText_mem
          simpa [Node.getText] using this
        have hsub : v ⊆ t :: v := List.subset_cons_self _ _
        have hspreads : ∀ e, ObjProp.spreadAssign e ∈ props → closedN U e :=
          fun e he => closedN_objectLit_spread hobj he
        have hloop := spreadsLoop_ok ih hsf props hspreads (t :: v)
        constructor
        · intro rs v' h
          simp only [extractFromObject, if_neg hvis] at h
          rcases hsl : spreadsLoop (fun n v => extractFromObject sf fp f n v) sf props
              (t :: v) with _ | ⟨rs₁, v₁⟩
          · rw [hsl] at h
            simp at h
          · rw [hsl] at h
            simp only [Option.some.injEq, Prod.mk.injEq] at h
            obtain ⟨_, rfl⟩ := h
            exact List.Subset.trans hsub (hloop.1 rs₁ v₁ hsl)
        · intro hcard
          simp only [extractFromObject, if_neg hvis]
          have hcard' : (U \ (t :: v).toFinset).card + 1 ≤ f := by
            have := card_sdiff_cons (U := U) htU hvis
            omega
          have := hloop.2 hcard'
          rcases hsl : spreadsLoop (fun n v => extractFromObject sf fp f n v) sf props
              (t :: v) with _ | ⟨rs₁, v₁⟩
          · rw [hsl] at this
            simp at this
          · simp [hsl]
    | ident nm =>
      exact ⟨fun rs v' h => by
        simp only [extractFromObject, Option.some.injEq, Prod.mk.injEq] at h
        obtain ⟨rfl, rfl⟩ := h
        exact List.Subset.refl v, fun _ => rfl⟩
    | call c args t =>
      exact ⟨fun rs v' h => by
        simp only [extractFromObject, Option.some.injEq, Prod.mk.injEq] at h
        obtain ⟨rfl, rfl⟩ := h
        exact List.Subset.refl v, fun _ => rfl⟩
    | propAccess o nm t =>
      exact ⟨fun rs v' h => by
        simp only [extractFromObject, Option.some.injEq, Prod.mk.injEq] at h
        obtain ⟨rfl, rfl⟩ := h
        exact List.Subset.refl v, fun _ => rfl⟩
    | arrowFn p r t =>
      exact ⟨fun rs v' h => by
        simp only [extractFromObject, Option.some.injEq, Prod.mk.injEq] at h
        obtain ⟨rfl, rfl⟩ := h
        exact List.Subset.refl v, fun _ => rfl⟩
    | funcExpr p r t =>
      exact ⟨fun rs v' h => by
        simp only [extractFromObject, Option.some.injEq, Prod.mk.injEq] at h
        obtain ⟨rfl, rfl⟩ := h
        exact List.Subset.refl v, fun _ => rfl⟩
    | other t =>
      exact ⟨fun rs v' h => by
        simp only [extractFromObject, Option.some.injEq, Prod.mk.injEq] at h
        obtain ⟨rfl, rfl⟩ := h
        exact List.Subset.refl v, fun _ => rfl⟩

/-- Termination of `extractRoutesWithSpreads`: the aggregation fuel bound
is never exhausted. -/
theorem agg_no_gas (objLiteral : Node) (sf : SourceFile) (fp : String) (v : List String) :
    (extractFromObject sf fp (aggBound objLiteral sf) objLiteral v).isSome := by
  have h := @extractFromObject_ok (textUniverse objLiteral sf) sf fp
    (sfClosed_textUniverse objLiteral sf) (aggBound objLiteral sf)
    objLiteral v (closedN_textUniverse objLiteral sf)
  apply h.2
  have hle : (textUniverse objLiteral sf \ v.toFinset).card ≤ (textUniverse objLiteral sf).card :=
    Finset.card_le_card (Finset.sdiff_subset)
  simp only [aggBound]
  omega

theorem spreadsLoop_agrees
    {e₁ e₂ : Node → List String → Option (List RouteInfo × List String)}
    {sf : SourceFile} (h : AggAgrees e₁ e₂) :
    ∀ props v o, spreadsLoop e₁ sf props v = some o → spreadsLoop e₂ sf props v = some o := by
  intro props
  induction props with
  | nil =>
    intro v o ho
    simpa [spreadsLoop] using ho
  | cons p ps ih =>
    intro v o ho
    cases p with
    | spreadAssign e =>
      rcases hrv : resolveVariableToObjectLiteral e sf with _ | resolved
      · simp only [spreadsLoop, hrv] at ho ⊢
        exact ih v o ho
      · rcases hr : e₁ resolved v with _ | ⟨rs₁, v₁⟩
        · simp [spreadsLoop, hrv, hr] at ho
        · have hr₂ := h resolved v _ hr
          simp only [spreadsLoop, hrv, hr] at ho
          simp only [spreadsLoop, hrv, hr₂]
          rcases hsl : spreadsLoop e₁ sf ps v₁ with _ | ⟨rs₂, v₂⟩
          · rw [hsl] at ho
            simp at ho
          · rw [hsl] at ho
            rw [ih v₁ _ hsl]
            exact ho
    | method mn mp mr =>
      simp only [spreadsLoop] at ho ⊢
      exact ih v o ho
    | propAssign pn pinit =>
      simp only [spreadsLoop] at ho ⊢
      exact ih v o ho
    | otherProp onm ot =>
      simp only [spreadsLoop] at ho ⊢
      exact ih v o ho

/-- Fuel monotonicity for the aggregation recursion. -/
theorem extractFromObject_mono {sf : SourceFile} {fp : String} :
    ∀ f g : Nat, f ≤ g →
      AggAgrees (fun n v => extractFromObject sf fp f n v)
        (fun n v => extractFromObject sf fp g n v) := by
  intro f
  induction f with
  | zero =>
    intro g _ n v o h
    simp [extractFromObject] at h
  | succ f ih =>
    intro g hg n v o h
    obtain ⟨g', rfl⟩ : ∃ g', g = g' + 1 := ⟨g - 1, by omega⟩
    have hagree : AggAgrees (fun n v => extractFromObject sf fp f n v)
        (fun n v => extractFromObject sf fp g' n v) := ih g' (by omega)
    cases n with
    | objectLit props t =>
      by_cases hvis : t ∈ v
      · simp only [extractFromObject, if_pos hvis] at h ⊢
        exact h
      · simp only [extractFromObject, if_neg hvis] at h ⊢
        rcases hsl : spreadsLoop (fun n v => extractFromObject sf fp f n v) sf props
            (t :: v) with _ | ⟨rs₁, v₁⟩
        · rw [hsl] at h
          simp at h
        · rw [hsl] at h
          rw [spreadsLoop_agrees hagree props (t :: v) _ hsl]
          exact h
    | ident nm => exact h
    | call c args t => exact h
    | propAccess obj nm t => exact h
    | arrowFn p r t => exact h
    | funcExpr p r t => exact h
    | other t => exact h

/-- Every route pushed by plain extraction carries the scanned file path
and a quote-stripped property name as path. -/
theorem routeOfProp_shape {fp : String} {p : ObjProp} {r : RouteInfo}
    (h : routeOfProp fp p = some r) :
    r.file = fp ∧ ∃ nm, r.path = stripQuotes nm := by
  cases p with
  | method nm params retType =>
    simp only [routeOfProp, Option.some.injEq] at h
    subst h
    exact ⟨rfl, nm, rfl⟩
  | propAssign nm pinit =>
    cases pinit with
    | none => simp [routeOfProp] at h
    | some init =>
      cases init with
      | arrowFn params retType t =>
        simp only [routeOfProp, Option.some.injEq] at h
        subst h
        exact ⟨rfl, nm, rfl⟩
      | funcExpr params retType t =>
        simp only [routeOfProp, Option.some.injEq] at h
        subst h
        exact ⟨rfl, nm, rfl⟩
      | objectLit p' t' => simp [routeOfProp] at h
      | ident n' => simp [routeOfProp] at h
      | call c' a' t' => simp [routeOfProp] at h
      | propAccess o' n' t' => simp [routeOfProp] at h
      | other t' => simp [routeOfProp] at h
  | spreadAssign e => simp [routeOfProp] at h
  | otherProp onm ot => simp [routeOfProp] at h

theorem extract_shape {lit : Node} {fp : String} {r : RouteInfo}
    (h : r ∈ extractRoutesFromObjectLiteral lit fp) :
    r.file = fp ∧ ∃ nm, r.path = stripQuotes nm := by
  cases lit with
  | objectLit props t =>
    simp only [extractRoutesFromObjectLiteral, List.mem_filterMap] at h
    rcases h with ⟨p, _, hp⟩
    exact routeOfProp_shape hp
  | ident nm => simp [extractRoutesFromObjectLiteral] at h
  | call c args t => simp [extractRoutesFromObjectLiteral] at h
  | propAccess o nm t => simp [extractRoutesFromObjectLiteral] at h
  | arrowFn p' r' t => simp [extractRoutesFromObjectLiteral] at h
  | funcExpr p' r' t => simp [extractRoutesFromObjectLiteral] at h
  | other t => simp [extractRoutesFromObjectLiteral] at h

theorem spreadsLoop_shape
    {efo : Node → List String → Option (List RouteInfo × List String)}
    {sf : SourceFile} {fp : String}
    (hefo : ∀ n v rs v', efo n v = some (rs, v') →
      ∀ r ∈ rs, r.file = fp ∧ ∃ nm, r.path = stripQuotes nm) :
    ∀ props v rs v', spreadsLoop efo sf props v = some (rs, v') →
      ∀ r ∈ rs, r.file = fp ∧ ∃ nm, r.path = stripQuotes nm := by
  intro props
  induction props with
  | nil =>
    intro v rs v' h r hr
    simp only [spreadsLoop, Option.some.injEq, Prod.mk.injEq] at h
    obtain ⟨rfl, rfl⟩ := h
    cases hr
  | cons p ps ih =>
    intro v rs v' h r hr
    cases p with
    | spreadAssign e =>
      rcases hrv : resolveVariableToObjectLiteral e sf with _ | resolved
      · simp only [spreadsLoop, hrv] at h
        exact ih v rs v' h r hr
      · rcases hef : efo resolved v with _ | ⟨rs₁, v₁⟩
        · simp [spreadsLoop, hrv, hef] at h
        · simp only [spreadsLoop, hrv, hef] at h
          rcases hsl : spreadsLoop efo sf ps v₁ with _ | ⟨rs₂, v₂⟩
          · rw [hsl] at h
            simp at h
          · rw [hsl] at h
            simp only [Option.some.injEq, Prod.mk.injEq] at h
            obtain ⟨rfl, rfl⟩ := h
            rcases List.mem_append.mp hr with hmem | hmem
            · exact hefo resolved v rs₁ v₁ hef r hmem
            · exact ih v₁ rs₂ v₂ hsl r hmem
    | method mn mp mr =>
      simp only [spreadsLoop] at h
      exact ih v rs v' h r hr
    | propAssign pn pinit =>
      simp only [spreadsLoop] at h
      exact ih v rs v' h r hr
    | otherProp onm ot =>
      simp only [spreadsLoop] at h
      exact ih v rs v' h r hr

theorem extractFromObject_shape {sf : SourceFile} {fp : String} :
    ∀ fuel obj v rs v', extractFromObject sf fp fuel obj v = some (rs, v') →
      ∀ r ∈ rs, r.file = fp ∧ ∃ nm, r.path = stripQuotes nm := by
  intro fuel
  induction fuel with
  | zero =>
    intro obj v rs v' h
    simp [extractFromObject] at h
  | succ f ih =>
    intro obj v rs v' h r hr
    cases obj with
    | objectLit props t =>
      by_cases hvis : t ∈ v
      · simp only [extractFromObject, if_pos hvis, Option.some.injEq, Prod.mk.injEq] at h
        obtain ⟨rfl, rfl⟩ := h
        cases hr
      · simp only [extractFromObject, if_neg hvis] at h
        rcases hsl : spreadsLoop (fun n v => extractFromObject sf fp f n v) sf props
            (t :: v) with _ | ⟨rs₁, v₁⟩
        · rw [hsl] at h
          simp at h
        · rw [hsl] at h
          simp only [Option.some.injEq, Prod.mk.injEq] at h
          obtain ⟨rfl, rfl⟩ := h
          rcases List.mem_append.mp hr with hmem | hmem
          · exact spreadsLoop_shape (fun n v rs v' hn => ih n v rs v' hn) props
              (t :: v) rs₁ v₁ hsl r hmem
          · exact extract_shape hmem
    | ident nm =>
      simp only [extractFromObject, Option.some.injEq, Prod.mk.injEq] at h
      obtain ⟨rfl, rfl⟩ := h
      cases hr
    | call c args t =>
      simp only [extractFromObject, Option.some.injEq, Prod.mk.injEq] at h
      obtain ⟨rfl, rfl⟩ := h
      cases hr
    | propAccess o nm t =>
      simp only [extractFromObject, Option.some.injEq, Prod.mk.injEq] at h
      obtain ⟨rfl, rfl⟩ := h
      cases hr
    | arrowFn p' r' t =>
      simp only [extractFromObject, Option.some.injEq, Prod.mk.injEq] at h
      obtain ⟨rfl, rfl⟩ := h
      cases hr
    | funcExpr p' r' t =>
      simp only [extractFromObject, Option.some.injEq, Prod.mk.injEq] at h
      obtain ⟨rfl, rfl⟩ := h
      cases hr
    | other t =>
      simp only [extractFromObject, Option.some.injEq, Prod.mk.injEq] at h
      obtain ⟨rfl, rfl⟩ := h
      cases hr

/-- Plain extraction ignores spread entries, so dropping one changes
nothing. -/
theorem extract_erase_spread {e : Node} (ps₁ ps₂ : List ObjProp) (t fp : String) :
    extractRoutesFromObjectLiteral (.objectLit (ps₁ ++ ObjProp.spreadAssign e :: ps₂) t) fp
      = extractRoutesFromObjectLiteral (.objectLit (ps₁ ++ ps₂) t) fp := by
  simp [extractRoutesFromObjectLiteral, List.filterMap_append, List.filterMap_cons, routeOfProp]

/-- A spread whose expression does not resolve contributes nothing to the
spread expansion and does not disturb its siblings. -/
theorem spreadsLoop_skip
    {efo : Node → List String → Option (List RouteInfo × List String)}
    {sf : SourceFile} {e : Node} (he : resolveVariableToObjectLiteral e sf = none) :
    ∀ (ps₁ ps₂ : List ObjProp) (v : List String),
      spreadsLoop efo sf (ps₁ ++ ObjProp.spreadAssign e :: ps₂) v
        = spreadsLoop efo sf (ps₁ ++ ps₂) v := by
  intro ps₁
  induction ps₁ with
  | nil =>
    intro ps₂ v
    simp only [List.nil_append, spreadsLoop, he]
  | cons p ps ih =>
    intro ps₂ v
    cases p with
    | spreadAssign e' =>
      simp only [List.cons_append, spreadsLoop]
      rcases hrv : resolveVariableToObjectLiteral e' sf with _ | resolved
      · simp only [hrv]
        exact ih ps₂ v
      · simp only [hrv]
        rcases hef : efo resolved v with _ | ⟨rs₁, v₁⟩
        · simp only [hef]
        · simp only [hef, List.append_eq, ih]
    | method mn mp mr =>
      simp only [List.cons_append, spreadsLoop]
      exact ih ps₂ v
    | propAssign pn pinit =>
      simp only [List.cons_append, spreadsLoop]
      exact ih ps₂ v
    | otherProp onm ot =>
      simp only [List.cons_append, spreadsLoop]
      exact ih ps₂ v

/-- At any fixed fuel, aggregation of a literal with an unresolvable
spread equals aggregation of the literal without that spread. -/
theorem extractFromObject_erase_spread {sf : SourceFile} {fp : String} {e : Node}
    (he : resolveVariableToObjectLiteral e sf = none) :
    ∀ (fuel : Nat) (ps₁ ps₂ : List ObjProp) (t : String) (v : List String),
      extractFromObject sf fp fuel (.objectLit (ps₁ ++ ObjProp.spreadAssign e :: ps₂) t) v
        = extractFromObject sf fp fuel (.objectLit (ps₁ ++ ps₂) t) v := by
  intro fuel ps₁ ps₂ t v
  cases fuel with
  | zero => rfl
  | succ f =>
    by_cases hvis : t ∈ v
    · simp [extractFromObject, hvis]
    · simp only [extractFromObject, if_neg hvis]
      rw [spreadsLoop_skip he ps₁ ps₂ (t :: v)]
      rcases hsl : spreadsLoop (fun n v => extractFromObject sf fp f n v) sf (ps₁ ++ ps₂)
          (t :: v) with _ | ⟨rs, v'⟩
      · rfl
      · simp only [Option.some.injEq, Prod.mk.injEq]
        rw [extract_erase_spread]
        exact ⟨rfl, trivial⟩

/-!
Claim theorems.
-/

/-- C5: for every object literal, the extractor emits exactly one
`RouteInfo` per own property that is a method shorthand or a key/value
property with a function-valued initializer, in property order, with path
equal to the (quote-stripped) member name; non-function key/value
properties, spreads, and other member kinds produce no route and never
make extraction fail. -/
theorem claim_C5_extractor_per_property :
    ∀ (props : List ObjProp) (t fp : String),
      (extractRoutesFromObjectLiteral (.objectLit props t) fp).map RouteInfo.path
        = props.filterMap claimPathOf := by
  intro props t fp
  simp only [extractRoutesFromObjectLiteral]
  induction props with
  | nil => rfl
  | cons p ps ih =>
    cases p with
    | method nm params retType =>
      simp [List.filterMap_cons, routeOfProp, claimPathOf, ih]
    | propAssign nm pinit =>
      cases pinit with
      | none => simp [List.filterMap_cons, routeOfProp, claimPathOf, ih]
      | some init =>
        cases init <;> simp [List.filterMap_cons, routeOfProp, claimPathOf, ih]
    | spreadAssign e =>
      simp [List.filterMap_cons, routeOfProp, claimPathOf, ih]
    | otherProp onm ot =>
      simp [List.filterMap_cons, routeOfProp, claimPathOf, ih]

/-- C6 counterexample: the claim says `paramText` equals the source text
of the first parameter's *type annotation*; for the handler
`foo(x: number)` the emitted `paramText` is the full parameter text
`x: number`, not the annotation text `number`. -/
theorem claim_C6_counterexample :
    ¬ ∀ r ∈ extractRoutesFromObjectLiteral
        (.objectLit [.method "foo" [cexParam] "R"] "cexLit") "a.ts",
      r.paramText = cexParam.tyText.getD "" := by
  decide

/-- C6 amended: `paramText` equals the full source text of the handler's
first declared parameter (binding name together with any type
annotation), or the empty string when the handler takes no parameter. -/
theorem claim_C6_amended_paramText :
    ∀ (props : List ObjProp) (t fp : String),
      (extractRoutesFromObjectLiteral (.objectLit props t) fp).map RouteInfo.paramText
        = props.filterMap claimParamSpec := by
  intro props t fp
  simp only [extractRoutesFromObjectLiteral]
  induction props with
  | nil => rfl
  | cons p ps ih =>
    cases p with
    | method nm params retType =>
      simp [List.filterMap_cons, routeOfProp, claimParamSpec, claimFullParamText,
        firstParamText, ih]
    | propAssign nm pinit =>
      cases pinit with
      | none => simp [List.filterMap_cons, routeOfProp, claimParamSpec, ih]
      | some init =>
        cases init <;>
          simp [List.filterMap_cons, routeOfProp, claimParamSpec, claimFullParamText,
            firstParamText, ih]
    | spreadAssign e =>
      simp [List.filterMap_cons, routeOfProp, claimParamSpec, ih]
    | otherProp onm ot =>
      simp [List.filterMap_cons, routeOfProp, claimParamSpec, ih]

/-- C9: `handleMessageResponse` never rejects: a response without error
resolves with its `data`, a response carrying an error and a rejected
response promise both resolve with `undefined`; `sendMessageRequest`,
which delegates to it, therefore never rejects either. -/
theorem claim_C9_never_rejects :
    (∀ (E T : Type) (d : Option T),
      handleMessageResponse (E := E) (T := T) (Except.ok ⟨d, none⟩) = Except.ok d)
    ∧ (∀ (E T : Type) (d : Option T) (e : E),
      handleMessageResponse (Except.ok ⟨d, some e⟩) = (Except.ok none : Except E (Option T)))
    ∧ (∀ (E T : Type) (e : E),
      handleMessageResponse (Except.error e : Except E (MessageResponse E T)) = Except.ok none)
    ∧ (∀ (E T : Type) (response : Except E (MessageResponse E T)),
      ∃ v, sendMessageRequest response = Except.ok v) := by
  refine ⟨fun E T d => rfl, fun E T d e => rfl, fun E T e => rfl, fun E T response => ?_⟩
  cases response with
  | error e => exact ⟨none, rfl⟩
  | ok result =>
    rcases hre : result.error with _ | e
    · exact ⟨result.data, by
        simp [sendMessageRequest, handleMessageResponse, pThen, pCatch, hre]⟩
    · exact ⟨none, by
        simp [sendMessageRequest, handleMessageResponse, pThen, pCatch, hre]⟩

/-- C10 (code bug): with the default options (`initialEnabled = true`)
the construction-time `enable()` call observes `enabled` already `true`
and therefore never invokes `addListener`: the router starts with
`enabled = true` but its listener is not registered (and `addListener`
was called zero times, not once, contradicting the claimed invariant). -/
theorem claim_C10_initial_listener_not_registered :
    (createRouterCoreState true).enabled = true
    ∧ (createRouterCoreState true).registered = false
    ∧ (createRouterCoreState true).addCalls = 0 :=
  ⟨rfl, rfl, rfl⟩

/-- C7 counterexample: the literal `{ "": () => ... }` produces a
`RouteInfo` whose path is the empty string after quote stripping, so the
claimed invariant that every produced path is non-empty fails. -/
theorem claim_C7_counterexample :
    ¬ ∀ r ∈ extractRoutesWithSpreads emptyKeyLit emptySF "f.ts", r.path ≠ "" := by
  decide

/-- C7 amended: every `RouteInfo` produced by aggregation carries the
scanned file path in `file` (even for routes reached through aliases or
spreads), and its `path` is some property name with surrounding quotes
stripped — hence non-empty whenever the written keys are non-empty after
quote stripping, but empty keys are passed through. -/
theorem claim_C7_amended_invariant :
    ∀ (objLiteral : Node) (sf : SourceFile) (fp : String) (r : RouteInfo),
      r ∈ extractRoutesWithSpreads objLiteral sf fp →
        r.file = fp ∧ ∃ nm, r.path = stripQuotes nm := by
  intro obj sf fp r hr
  cases obj with
  | objectLit props t =>
    simp only [extractRoutesWithSpreads] at hr
    rcases hefo : extractFromObject sf fp (aggBound (.objectLit props t) sf)
        (.objectLit props t) [] with _ | ⟨rs, v'⟩
    · rw [hefo] at hr
      cases hr
    · rw [hefo] at hr
      exact extractFromObject_shape _ _ _ rs v' hefo r hr
  | ident nm => cases hr
  | call c args t => cases hr
  | propAccess o nm t => cases hr
  | arrowFn p' r' t => cases hr
  | funcExpr p' r' t => cases hr
  | other t => cases hr

/-- Witness for the amended C7 theorem at a concrete input. -/
theorem claim_C7_amended_invariant_witness :
    (⟨"m", "f.ts", "", "T"⟩ : RouteInfo) ∈ extractRoutesWithSpreads witLit emptySF "f.ts"
    ∧ ((⟨"m", "f.ts", "", "T"⟩ : RouteInfo).file = "f.ts"
        ∧ ∃ nm, (⟨"m", "f.ts", "", "T"⟩ : RouteInfo).path = stripQuotes nm) :=
  ⟨by decide, claim_C7_amended_invariant witLit emptySF "f.ts" _ (by decide)⟩

/-- C2: resolution and spread-aware aggregation terminate and never
throw.  (1) For every input node and visited set there is a fuel value at
which resolution completes, and the result is stable under any larger
fuel — the fuel models the source call stack, so this is termination of
the source recursion.  (2) Re-encountering an already-visited node text
aborts the branch as unresolved without touching the visited set.
(3) A node kind the resolver does not handle yields `undefined`, not an
error.  (4) Aggregation likewise completes within its fuel bound for
every input.  (5) A self-referential alias resolves to `undefined`, and a
self-spreading literal contributes no routes from the cyclic branch while
its own routes are still extracted. -/
theorem claim_C2_termination_and_cycles :
    (∀ (node : Node) (sf : SourceFile) (v : List String), ∃ N : Nat,
      (resolveNodeRecursively N node sf v).isSome
      ∧ ∀ f : Nat, N ≤ f →
        resolveNodeRecursively f node sf v = resolveNodeRecursively N node sf v)
    ∧ (∀ (fuel : Nat) (node : Node) (sf : SourceFile) (v : List String),
        node.getText ∈ v → resolveNodeRecursively (fuel + 1) node sf v = some (none, v))
    ∧ (∀ (t : String) (sf : SourceFile), resolveVariableToObjectLiteral (.other t) sf = none)
    ∧ (∀ (objLiteral : Node) (sf : SourceFile) (fp : String) (v : List String),
        (extractFromObject sf fp (aggBound objLiteral sf) objLiteral v).isSome)
    ∧ resolveVariableToObjectLiteral (.ident "a") cycSF = none
    ∧ extractRoutesWithSpreads selfLit selfSF "f.ts" = [⟨"m", "f.ts", "", "T"⟩] := by
  refine ⟨?_, ?_, ?_, ?_, ?_, ?_⟩
  · intro node sf v
    refine ⟨resolveBound node sf, resolve_no_gas node sf v, ?_⟩
    intro f hf
    obtain ⟨o, ho⟩ := Option.isSome_iff_exists.mp (resolve_no_gas node sf v)
    have hmono := resolveNodeRecursively_mono (resolveBound node sf) f hf node v o ho
    rw [show resolveNodeRecursively f node sf v = some o from hmono, ho]
  · intro fuel node sf v h
    simp [resolveNodeRecursively, h]
  · intro t sf
    simp [resolveVariableToObjectLiteral, resolveBound, resolveNodeRecursively, Node.getText]
  · intro objLiteral sf fp v
    exact agg_no_gas objLiteral sf fp v
  · rfl
  · rfl

/-- Witness for C2: the cycle guard fires at a concrete visited input. -/
theorem claim_C2_witness :
    resolveNodeRecursively 1 (.other "x") emptySF ["x"] = some (none, ["x"]) :=
  claim_C2_termination_and_cycles.2.1 0 (.other "x") emptySF ["x"] (by decide)

/-- C3: for an identifier node the resolver consults the file's variable
declarations first — the first declaration with that name *and* an
initializer wins and its initializer is resolved recursively — and only
when no such declaration exists does it search the file's function
declarations with that name, resolving every return statement's
expression and keeping the first successful resolution.  The conjuncts
characterise the dispatch from `resolveNodeRecursively`, the two branches
of `resolveIdentifier`, and the three loops involved. -/
theorem claim_C3_identifier_lookup_order :
    (∀ (f : Nat) (nm : String) (sf : SourceFile) (v : List String), nm ∉ v →
      resolveNodeRecursively (f + 1) (.ident nm) sf v
        = resolveIdentifier (fun n w => resolveNodeRecursively f n sf w) (.ident nm) sf
            (nm :: v))
    ∧ (∀ (res : Node → List String → Option RState) (nm : String) (sf : SourceFile)
        (v : List String) (init : Node),
        findVarInit sf.variableDeclarations nm = some init →
        resolveIdentifier res (.ident nm) sf v = res init v)
    ∧ (∀ (res : Node → List String → Option RState) (nm : String) (sf : SourceFile)
        (v : List String),
        findVarInit sf.variableDeclarations nm = none →
        resolveIdentifier res (.ident nm) sf v = funcsLoop res nm sf.functions v)
    ∧ (∀ nm : String, findVarInit [] nm = none)
    ∧ (∀ (d : VariableDeclaration) (ds : List VariableDeclaration) (nm : String),
        findVarInit (d :: ds) nm =
          if d.name = nm then
            match d.init with
            | some i => some i
            | none => findVarInit ds nm
          else findVarInit ds nm)
    ∧ (∀ (res : Node → List String → Option RState) (nm : String) (v : List String),
        funcsLoop res nm [] v = some (none, v))
    ∧ (∀ (res : Node → List String → Option RState) (nm : String)
        (f : FunctionDeclaration) (fs : List FunctionDeclaration) (v : List String),
        f.name ≠ some nm → funcsLoop res nm (f :: fs) v = funcsLoop res nm fs v)
    ∧ (∀ (res : Node → List String → Option RState) (nm : String)
        (f : FunctionDeclaration) (fs : List FunctionDeclaration) (v : List String),
        f.name = some nm →
        funcsLoop res nm (f :: fs) v =
          match returnsLoop res f.returnExprs v with
          | none => none
          | some (some r, v') => some (some r, v')
          | some (none, v') => funcsLoop res nm fs v')
    ∧ (∀ (res : Node → List String → Option RState) (v : List String),
        returnsLoop res [] v = some (none, v))
    ∧ (∀ (res : Node → List String → Option RState) (rs : List (Option Node))
        (v : List String), returnsLoop res (none :: rs) v = returnsLoop res rs v)
    ∧ (∀ (res : Node → List String → Option RState) (e : Node) (rs : List (Option Node))
        (v : List String),
        returnsLoop res (some e :: rs) v =
          match res e v with
          | none => none
          | some (some r, v') => some (some r, v')
          | some (none, v') => returnsLoop res rs v') := by
  refine ⟨?_, ?_, ?_, fun _ => rfl, fun _ _ _ => rfl, fun _ _ _ => rfl, ?_, ?_,
    fun _ _ => rfl, fun _ _ _ => rfl, fun _ _ _ _ => rfl⟩
  · intro f nm sf v h
    simp [resolveNodeRecursively, Node.getText, h]
  · intro res nm sf v init h
    simp [resolveIdentifier, h]
  · intro res nm sf v h
    simp [resolveIdentifier, h]
  · intro res nm f fs v h
    simp [funcsLoop, h]
  · intro res nm f fs v h
    simp [funcsLoop, h]

/-- Witness for C3 at a concrete input: the variable declaration of `a`
in `cycSF` is found and its initializer is handed to the recursive
resolver. -/
theorem claim_C3_witness :
    resolveIdentifier (fun _ w => some (none, w)) (.ident "a") cycSF []
      = some (none, []) :=
  claim_C3_identifier_lookup_order.2.1 (fun _ w => some (none, w)) "a" cycSF []
    (.ident "a") rfl

/-- C4: for a call expression whose callee is an identifier naming a
known pass-through helper (`defineMessageRoutes`, `Object.assign`,
`merge`) the first argument is resolved recursively when present; in
every other identifier-callee case (unknown callee, or a pass-through
callee applied to no arguments) the file's function declarations with
that name are searched exactly as for identifiers, via the same
`funcsLoop`; a non-identifier callee resolves to `undefined`. -/
theorem claim_C4_call_resolution :
    (∀ (f : Nat) (c : Node) (args : List Node) (t : String) (sf : SourceFile)
        (v : List String), t ∉ v →
      resolveNodeRecursively (f + 1) (.call c args t) sf v
        = resolveFunctionCall (fun n w => resolveNodeRecursively f n sf w)
            (.call c args t) sf (t :: v))
    ∧ (∀ (res : Node → List String → Option RState) (fn : String) (a : Node)
        (args' : List Node) (t : String) (sf : SourceFile) (v : List String),
        fn = "defineMessageRoutes" ∨ fn = "Object.assign" ∨ fn = "merge" →
        resolveFunctionCall res (.call (.ident fn) (a :: args') t) sf v = res a v)
    ∧ (∀ (res : Node → List String → Option RState) (fn : String) (args : List Node)
        (t : String) (sf : SourceFile) (v : List String),
        ¬ (fn = "defineMessageRoutes" ∨ fn = "Object.assign" ∨ fn = "merge") →
        resolveFunctionCall res (.call (.ident fn) args t) sf v
          = funcsLoop res fn sf.functions v)
    ∧ (∀ (res : Node → List String → Option RState) (fn : String) (t : String)
        (sf : SourceFile) (v : List String),
        resolveFunctionCall res (.call (.ident fn) [] t) sf v
          = funcsLoop res fn sf.functions v)
    ∧ (∀ (res : Node → List String → Option RState) (c : Node) (args : List Node)
        (t : String) (sf : SourceFile) (v : List String),
        (∀ nm : String, c ≠ .ident nm) →
        resolveFunctionCall res (.call c args t) sf v = some (none, v)) := by
  refine ⟨?_, ?_, ?_, ?_, ?_⟩
  · intro f c args t sf v h
    simp [resolveNodeRecursively, Node.getText, h]
  · intro res fn a args' t sf v h
    simp [resolveFunctionCall, if_pos h]
  · intro res fn args t sf v h
    cases args <;> simp [resolveFunctionCall, if_neg h]
  · intro res fn t sf v
    by_cases h : fn = "defineMessageRoutes" ∨ fn = "Object.assign" ∨ fn = "merge"
    · simp [resolveFunctionCall, if_pos h]
    · simp [resolveFunctionCall, if_neg h]
  · intro res c args t sf v h
    cases c with
    | ident nm => exact absurd rfl (h nm)
    | objectLit p t' => rfl
    | call c' a' t' => rfl
    | propAccess o' n' t' => rfl
    | arrowFn p' r' t' => rfl
    | funcExpr p' r' t' => rfl
    | other t' => rfl

/-- Witness for C4 at a concrete input: `merge(x)` resolves its first
argument. -/
theorem claim_C4_witness :
    resolveFunctionCall (fun _ w => some (none, w))
        (.call (.ident "merge") [.other "o"] "mc") emptySF []
      = some (none, []) :=
  claim_C4_call_resolution.2.1 (fun _ w => some (none, w)) "merge" (.other "o") [] "mc"
    emptySF [] (Or.inr (Or.inr rfl))

/-- C1: spread-aware aggregation returns, for an object literal, the
flattened routes of its spread entries followed by the literal's own
non-spread routes: (1) the overall result decomposes as the spread
expansion (over the properties in source order, starting from the visited
set holding the literal's text) followed by `extractRoutesFromObjectLiteral`
of the literal itself; (2) a spread entry that resolves contributes the
full recursive aggregation of its resolved literal *before* the
contributions of the remaining entries; (3)/(4) non-spread entries
contribute nothing to the spread expansion; (5) duplicate paths are kept:
`{ ...shared, x() {} }` with `shared = { x() {} }` yields the path `x`
twice, deduplication being left to the caller. -/
theorem claim_C1_spread_flattening :
    (∀ (props : List ObjProp) (t : String) (sf : SourceFile) (fp : String),
      ∃ rs v',
        spreadsLoop (fun n v =>
            extractFromObject sf fp (textUniverse (.objectLit props t) sf).card n v)
          sf props [t] = some (rs, v')
        ∧ extractRoutesWithSpreads (.objectLit props t) sf fp
            = rs ++ extractRoutesFromObjectLiteral (.objectLit props t) fp)
    ∧ (∀ (efo : Node → List String → Option (List RouteInfo × List String))
        (sf : SourceFile) (e : Node) (ps : List ObjProp) (v : List String)
        (ro : Node) (rs₁ : List RouteInfo) (v₁ : List String)
        (rs₂ : List RouteInfo) (v₂ : List String),
        resolveVariableToObjectLiteral e sf = some ro →
        efo ro v = some (rs₁, v₁) →
        spreadsLoop efo sf ps v₁ = some (rs₂, v₂) →
        spreadsLoop efo sf (ObjProp.spreadAssign e :: ps) v = some (rs₁ ++ rs₂, v₂))
    ∧ (∀ (efo : Node → List String → Option (List RouteInfo × List String))
        (sf : SourceFile) (nm : String) (params : List Param) (retType : String)
        (ps : List ObjProp) (v : List String),
        spreadsLoop efo sf (ObjProp.method nm params retType :: ps) v
          = spreadsLoop efo sf ps v)
    ∧ (∀ (efo : Node → List String → Option (List RouteInfo × List String))
        (sf : SourceFile) (nm : String) (init : Option Node)
        (ps : List ObjProp) (v : List String),
        spreadsLoop efo sf (ObjProp.propAssign nm init :: ps) v
          = spreadsLoop efo sf ps v)
    ∧ (extractRoutesWithSpreads dupLit dupSF "f.ts").map RouteInfo.path = ["x", "x"] := by
  refine ⟨?_, ?_, fun _ _ _ _ _ _ _ => rfl, fun _ _ _ _ _ _ => rfl, rfl⟩
  · intro props t sf fp
    have hng := agg_no_gas (.objectLit props t) sf fp []
    have hbound : aggBound (.objectLit props t) sf
        = (textUniverse (.objectLit props t) sf).card + 1 := rfl
    rw [hbound] at hng
    simp only [extractFromObject, if_neg (List.not_mem_nil t)] at hng
    rcases hsl : spreadsLoop (fun n v =>
        extractFromObject sf fp (textUniverse (.objectLit props t) sf).card n v)
        sf props [t] with _ | ⟨rs, v'⟩
    · rw [hsl] at hng
      simp at hng
    · refine ⟨rs, v', rfl, ?_⟩
      have hefo : extractFromObject sf fp (aggBound (.objectLit props t) sf)
          (.objectLit props t) []
          = some (rs ++ extractRoutesFromObjectLiteral (.objectLit props t) fp, v') := by
        rw [hbound]
        simp only [extractFromObject, if_neg (List.not_mem_nil t)]
        rw [hsl]
      simp only [extractRoutesWithSpreads, hefo]
  · intro efo sf e ps v ro rs₁ v₁ rs₂ v₂ h1 h2 h3
    simp [spreadsLoop, h1, h2, h3]

/-- Witness for C1 at a concrete input: the spread of `shared` in
`dupLit` is expanded depth-first before its siblings. -/
theorem claim_C1_witness :
    spreadsLoop (fun n v => extractFromObject dupSF "f.ts" 3 n v) dupSF
        [ObjProp.spreadAssign (.ident "shared")] ["dupLit"]
      = some ([⟨"x", "f.ts", "", "T"⟩] ++ [], ["sharedLit", "dupLit"]) :=
  claim_C1_spread_flattening.2.1 (fun n v => extractFromObject dupSF "f.ts" 3 n v)
    dupSF (.ident "shared") [] ["dupLit"] sharedLit [⟨"x", "f.ts", "", "T"⟩]
    ["sharedLit", "dupLit"] [] ["sharedLit", "dupLit"] rfl rfl rfl

/-- C8: when a spread entry's expression cannot be statically resolved to
an object literal, aggregation omits exactly that spread's contribution:
the result equals the aggregation of the same literal with the
unresolvable spread removed, so every sibling entry (other spreads and
the literal's own properties) is still processed, and no error is
raised. -/
theorem claim_C8_unresolvable_spread_skipped :
    ∀ (ps₁ ps₂ : List ObjProp) (e : Node) (t : String) (sf : SourceFile) (fp : String),
      resolveVariableToObjectLiteral e sf = none →
      extractRoutesWithSpreads (.objectLit (ps₁ ++ ObjProp.spreadAssign e :: ps₂) t) sf fp
        = extractRoutesWithSpreads (.objectLit (ps₁ ++ ps₂) t) sf fp := by
  intro ps₁ ps₂ e t sf fp he
  have h₁ := agg_no_gas (.objectLit (ps₁ ++ ObjProp.spreadAssign e :: ps₂) t) sf fp []
  obtain ⟨o₁, ho₁⟩ := Option.isSome_iff_exists.mp h₁
  have h₂ := agg_no_gas (.objectLit (ps₁ ++ ps₂) t) sf fp []
  obtain ⟨o₂, ho₂⟩ := Option.isSome_iff_exists.mp h₂
  have hM₁ := extractFromObject_mono
    (aggBound (.objectLit (ps₁ ++ ObjProp.spreadAssign e :: ps₂) t) sf)
    (max (aggBound (.objectLit (ps₁ ++ ObjProp.spreadAssign e :: ps₂) t) sf)
      (aggBound (.objectLit (ps₁ ++ ps₂) t) sf))
    (le_max_left _ _)
    (.objectLit (ps₁ ++ ObjProp.spreadAssign e :: ps₂) t) [] o₁ ho₁
  have hM₂ := extractFromObject_mono
    (aggBound (.objectLit (ps₁ ++ ps₂) t) sf)
    (max (aggBound (.objectLit (ps₁ ++ ObjProp.spreadAssign e :: ps₂) t) sf)
      (aggBound (.objectLit (ps₁ ++ ps₂) t) sf))
    (le_max_right _ _)
    (.objectLit (ps₁ ++ ps₂) t) [] o₂ ho₂
  have heq := @extractFromObject_erase_spread sf fp e he
    (max (aggBound (.objectLit (ps₁ ++ ObjProp.spreadAssign e :: ps₂) t) sf)
      (aggBound (.objectLit (ps₁ ++ ps₂) t) sf)) ps₁ ps₂ t []
  have ho : o₁ = o₂ := by
    have hs₁ : extractFromObject sf fp
        (max (aggBound (.objectLit (ps₁ ++ ObjProp.spreadAssign e :: ps₂) t) sf)
          (aggBound (.objectLit (ps₁ ++ ps₂) t) sf))
        (.objectLit (ps₁ ++ ObjProp.spreadAssign e :: ps₂) t) [] = some o₁ := hM₁
    have hs₂ : extractFromObject sf fp
        (max (aggBound (.objectLit (ps₁ ++ ObjProp.spreadAssign e :: ps₂) t) sf)
          (aggBound (.objectLit (ps₁ ++ ps₂) t) sf))
        (.objectLit (ps₁ ++ ps₂) t) [] = some o₂ := hM₂
    rw [heq, hs₂] at hs₁
    exact (Option.some_inj.mp hs₁).symm
  obtain ⟨rs₂, v₂⟩ := o₂
  simp only [extractRoutesWithSpreads, ho₁, ho₂, ho]

/-- Witness for C8 at a concrete input: the unresolvable spread of the
undeclared `nope` is dropped while the sibling route `m` survives. -/
theorem claim_C8_witness :
    extractRoutesWithSpreads
        (.objectLit ([] ++ ObjProp.spreadAssign (.ident "nope")
          :: [.method "m" [] "T"]) "w") emptySF "f.ts"
      = extractRoutesWithSpreads (.objectLit ([] ++ [.method "m" [] "T"]) "w")
          emptySF "f.ts" :=
  claim_C8_unresolvable_spread_skipped [] [.method "m" [] "T"] (.ident "nope") "w"
    emptySF "f.ts" rfl
